import Mathlib

/-!
Verification of the ALOGIT-Python choice-model library.

This file gives a shallow embedding of the repository's core code:
`choice_model/interface/alogit.py` (abbreviation registry, `.alo` record
serializer, solver-log parser, `estimate` state machine),
`choice_model/interface/interface.py` (model-type validation) and
`choice_model/synthetic.py` (`synthetic_model`), together with theorems
settling the specification claims about them.

Modelling conventions:
* Python `str` is Lean `String`; `str(number)` on a natural number is
  `Nat.repr` (both produce plain decimal digits).
* Python dicts are association lists in insertion order; lookup follows
  Python semantics (the most recent binding for a key wins, `KeyError`
  when absent).
* Fallible Python code is `Except PyErr`; an uncaught exception is an
  `Except.error` value.  Attribute mutation that survives an exception is
  made explicit by returning the final state next to the optional error.
* Numeric values parsed from the log are kept as their source tokens
  (validated against the `float()` literal grammar); no claim depends on
  floating-point arithmetic, only on which token is captured where.
* `textwrap.wrap(s, width, break_long_words=False)` is transcribed from
  CPython's `textwrap` stage by stage — whitespace munging (tab expansion
  and translation to spaces), the `wordsep_re` chunker (whitespace runs,
  em-dash runs, and words split at eligible hyphens) and the greedy
  `_wrap_chunks` loop with `drop_whitespace=True` — with the regex
  character classes read over ASCII, the alphabet of every string this
  program builds.
-/

/-- Python exception values relevant to this code base.  `keyError` and
`indexError` are the `LookupError` subclasses; `stateError` stands for the
error a guarded result accessor raises before estimation. -/
inductive PyErr where
  | keyError (key : String)
  | indexError
  | valueError (msg : String)
  | typeError (msg : String)
  | attributeError (msg : String)
  | stateError
  deriving DecidableEq

/-- Whether an exception is of Python's `LookupError` class
(`KeyError` and `IndexError` are its subclasses). -/
def PyErr.isLookupError : PyErr → Bool
  | .keyError _ => true
  | .indexError => true
  | _ => false

/-- Lookup in a Python dict represented as an insertion-ordered association
list: the most recently written binding for a key wins. -/
def pyDictGet? (l : List (String × String)) (k : String) : Option String :=
  (l.reverse.find? (fun p => p.1 == k)).map (·.2)

/-- Python dict item assignment `d[k] = v`: update in place if the key
exists, else append. -/
def pyDictSet (l : List (String × String)) (k v : String) : List (String × String) :=
  if l.any (fun p => p.1 == k) then
    l.map (fun p => if p.1 == k then (k, v) else p)
  else l ++ [(k, v)]

/-- Python dict subscription `d[k]`, raising `KeyError` when absent. -/
def pyDictGetE (l : List (String × String)) (k : String) : Except PyErr String :=
  match pyDictGet? l k with
  | some v => .ok v
  | none => .error (.keyError k)

/-- Python list indexing `l[i]` for `i ≥ 0`, raising `IndexError` when out
of range. -/
def pyIdx (l : List String) (i : Nat) : Except PyErr String :=
  match l.get? i with
  | some v => .ok v
  | none => .error .indexError

/-- Python negative indexing `l[-k]` (for `k ≥ 1`), raising `IndexError`
when out of range. -/
def pyIdxNeg (l : List String) (k : Nat) : Except PyErr String :=
  match l.reverse.get? (k - 1) with
  | some v => .ok v
  | none => .error .indexError

/-! ### Whitespace splitting (Python `str.split()` / textwrap chunking) -/

/-- Split a character list into maximal runs of non-whitespace characters,
with `acc` holding the (reversed) word in progress.  This is the semantics
of Python's `str.split()` with no argument. -/
def wordsAux (acc : List Char) : List Char → List (List Char)
  | [] => if acc.isEmpty then [] else [acc.reverse]
  | c :: cs =>
    if c.isWhitespace then
      if acc.isEmpty then wordsAux [] cs else acc.reverse :: wordsAux [] cs
    else wordsAux (c :: acc) cs

/-- The whitespace-separated words of a string (Python `s.split()`). -/
def splitWords (s : String) : List String :=
  (wordsAux [] s.data).map List.asString

/-- Join words with single spaces (how textwrap renders one output line). -/
def joinSp : List String → String
  | [] => ""
  | [w] => w
  | w :: ws => w ++ " " ++ joinSp ws

/-! ### `textwrap.wrap` as the serializer calls it

Every record is wrapped with `textwrap.wrap(string, width=77,
break_long_words=False)`.  The definitions below transcribe CPython's
`textwrap` for that configuration stage by stage: `_munge_whitespace`
(tab expansion at tab stops of 8, then translation of the whitespace
class to spaces), `_split` (the `wordsep_re` word separator: maximal
whitespace runs, em-dash runs between word punctuation and a word
character, and words, split after a hyphen that follows two letters or
letter-hyphen-letter and precedes letter, optional hyphen, letter), and
`_wrap_chunks` with the defaults `drop_whitespace=True` and
`break_long_words=False`.  Notably, whitespace runs inside a line are
preserved, and hyphenated words can be split across lines. -/

/-- The Python whitespace class `string.whitespace` = tab, newline,
vertical tab, form feed, carriage return and space — the class `textwrap`
munges and its `wordsep_re` splits on. -/
def isPyWs (c : Char) : Bool :=
  c = ' ' || c = '\t' || c = '\n' || c = '\x0b' || c = '\x0c' || c = '\r'

/-- The regex class `\w` read over ASCII (the alphabet of every string
this program builds): alphanumeric or underscore. -/
def pyWordChar (c : Char) : Bool := c.isAlphanum || c = '_'

/-- textwrap's letter class `[^\d\W]`: a word character that is not a
digit. -/
def pyLetter (c : Char) : Bool := pyWordChar c && !c.isDigit

/-- textwrap's word-punctuation class: a word character or one of
`!"\x27&.,?`. -/
def pyWordPunct (c : Char) : Bool :=
  pyWordChar c || c = '!' || c = '"' || c = '\x27' || c = '&' || c = '.' || c = ',' || c = '?'

/-- The leading run of hyphens of a character list, with the remainder. -/
def hyphRun : List Char → Nat × List Char
  | [] => (0, [])
  | c :: t =>
    if c = '-' then
      let p := hyphRun t
      (p.1 + 1, p.2)
    else (0, c :: t)

/-- The lookahead `(?=-{2,}\w)`: at least two hyphens followed by a word
character.  Backtracking inside the hyphen run never exposes a word
character, so the whole run must be followed by one. -/
def emDashAhead (l : List Char) : Bool :=
  decide (2 ≤ (hyphRun l).1) &&
    (match (hyphRun l).2 with | c :: _ => pyWordChar c | [] => false)

/-- The lookbehind of the hyphenated-word branch, evaluated just before
consuming the hyphen: `pr` is the reversed text before the hyphen, and
either the two preceding characters are letters (`(?<=lt{2}-)`) or
letter-hyphen-letter precede it (`(?<=lt-lt-)`). -/
def hyphLookbehind (pr : List Char) : Bool :=
  (match pr with
   | a :: b :: _ => pyLetter a && pyLetter b
   | _ => false) ||
  (match pr with
   | a :: '-' :: b :: _ => pyLetter a && pyLetter b
   | _ => false)

/-- The lookahead `(?=lt-?lt)` of the hyphenated-word branch, applied to
the text after the consumed hyphen. -/
def hyphLookahead : List Char → Bool
  | c :: d :: rest =>
    pyLetter c && (pyLetter d ||
      (d = '-' && (match rest with | e :: _ => pyLetter e | [] => false)))
  | _ => false

/-- The word branch of `wordsep_re`, `[^ws]+?(?: A | B | C )`: with one
character already consumed into `acc`, keep consuming non-whitespace
characters, stopping — in the regex's alternation order — (A) after a
hyphen satisfying the hyphenated-word conditions, (B) before whitespace or
the end of the text, or (C) before an em-dash run that follows word
punctuation and precedes a word character.  `pr` is the reversed text
already consumed (the lookbehinds may reach before the current chunk);
returns the chunk and the remaining text. -/
def wordChunkAux : Nat → List Char → List Char → List Char → List Char × List Char
  | 0, _, acc, rest => (acc.reverse, rest)
  | fuel + 1, pr, acc, rest =>
    match rest with
    | [] => (acc.reverse, [])
    | c :: r =>
      if c = '-' && hyphLookbehind pr && hyphLookahead r then
        ((c :: acc).reverse, r)
      else if isPyWs c then
        (acc.reverse, c :: r)
      else if pyWordPunct (pr.headD ' ') && emDashAhead (c :: r) then
        (acc.reverse, c :: r)
      else
        wordChunkAux fuel (c :: pr) (c :: acc) r

/-- `TextWrapper._split` via the compiled `wordsep_re`: the text resolves
into maximal whitespace runs, em-dash runs standing between word
punctuation and a word character, and word chunks; `pr` is the reversed
text already consumed and `out` the chunks so far, reversed.  The fuel
bounds the number of chunks; each chunk consumes at least one character,
so the text length suffices. -/
def splitChunksAux : Nat → List Char → List Char → List (List Char) → List (List Char)
  | 0, _, _, out => out.reverse
  | fuel + 1, pr, rest, out =>
    match rest with
    | [] => out.reverse
    | c :: r =>
      if isPyWs c then
        splitChunksAux fuel ((c :: r.takeWhile isPyWs).reverse ++ pr)
          (r.dropWhile isPyWs) ((c :: r.takeWhile isPyWs) :: out)
      else if pyWordPunct (pr.headD ' ') && emDashAhead (c :: r) then
        splitChunksAux fuel (List.replicate (hyphRun (c :: r)).1 '-' ++ pr)
          (hyphRun (c :: r)).2 (List.replicate (hyphRun (c :: r)).1 '-' :: out)
      else
        splitChunksAux fuel ((wordChunkAux r.length (c :: pr) [c] r).1.reverse ++ pr)
          (wordChunkAux r.length (c :: pr) [c] r).2
          ((wordChunkAux r.length (c :: pr) [c] r).1 :: out)

/-- `str.expandtabs(8)`: a tab becomes spaces up to the next multiple of
8 columns; the column counter resets at newline and carriage return. -/
def expandTabsAux : List Char → Nat → List Char
  | [], _ => []
  | c :: cs, col =>
    if c = '\t' then
      List.replicate (8 - col % 8) ' ' ++ expandTabsAux cs 0
    else if c = '\n' || c = '\r' then
      c :: expandTabsAux cs 0
    else
      c :: expandTabsAux cs (col + 1)

/-- `TextWrapper._munge_whitespace`: expand tabs, then translate every
whitespace-class character to a plain space. -/
def _munge_whitespace (s : String) : String :=
  ⟨(expandTabsAux s.data 0).map (fun c => if isPyWs c then ' ' else c)⟩

/-- `TextWrapper._split` applied by `wrap` to the munged text. -/
def _split (s : String) : List String :=
  (splitChunksAux s.data.length [] s.data []).map List.asString

/-- The test `chunk.strip() == ''` of `_wrap_chunks`: the chunk is
entirely whitespace. -/
def strAllWs (s : String) : Bool := s.data.all isPyWs

/-- `''.join(cur_line)`. -/
def joinStr (l : List String) : String := l.foldl (· ++ ·) ""

/-- The inner greedy loop of `_wrap_chunks`: take chunks while the line
stays within the width. -/
def greedyTake (width : Nat) : Nat → List String → List String × List String
  | _, [] => ([], [])
  | curLen, c :: rest =>
    if curLen + c.length ≤ width then
      (c :: (greedyTake width (curLen + c.length) rest).1,
        (greedyTake width (curLen + c.length) rest).2)
    else ([], c :: rest)

/-- `_handle_long_word` with `break_long_words=False`: when no chunk fit
the current line and the next chunk exceeds the width, put that chunk on
the line whole; with a partially filled line it is left for the next
line. -/
def handleLong (width : Nat) : List String × List String → List String × List String
  | ([], c :: r) => if width < c.length then ([c], r) else ([], c :: r)
  | p => p

/-- The `drop_whitespace` rule for a built line: a final all-whitespace
chunk is removed. -/
def dropTrailWs : List String → List String
  | [] => []
  | [c] => if strAllWs c then [] else [c]
  | c :: cs => c :: dropTrailWs cs

/-- One line-building step of `_wrap_chunks`: greedy packing, then the
long-word rule. -/
def wrapStep (width : Nat) (work : List String) : List String × List String :=
  handleLong width (greedyTake width 0 work)

/-- The outer loop of `_wrap_chunks` with the serializer's configuration
(`initial_indent`/`subsequent_indent` empty, `drop_whitespace=True`,
`max_lines=None`): on every line but the first a leading all-whitespace
chunk is dropped, a line is built by `wrapStep`, its trailing whitespace
chunk removed, and the line emitted if nonempty.  `acc` holds the emitted
lines reversed. -/
def wrapChunksAux (width : Nat) : Nat → List String → List String → List String
  | 0, _, acc => acc.reverse
  | _ + 1, [], acc => acc.reverse
  | fuel + 1, c0 :: rest0, acc =>
    wrapChunksAux width fuel
      (wrapStep width (if strAllWs c0 && !acc.isEmpty then rest0 else c0 :: rest0)).2
      (if (dropTrailWs (wrapStep width
            (if strAllWs c0 && !acc.isEmpty then rest0 else c0 :: rest0)).1).isEmpty
        then acc
        else joinStr (dropTrailWs (wrapStep width
            (if strAllWs c0 && !acc.isEmpty then rest0 else c0 :: rest0)).1) :: acc)

/-- `textwrap.wrap(s, width=width, break_long_words=False)` exactly as
the serializer calls it. -/
def pyWrap (width : Nat) (s : String) : List String :=
  wrapChunksAux width (_split (_munge_whitespace s)).length (_split (_munge_whitespace s)) []

/-! ### Python `float()` literal grammar (ASCII decimal forms) -/

/-- All characters are decimal digits. -/
def digitsOnly (l : List Char) : Bool := l.all (·.isDigit)

/-- An optionally signed nonempty digit run (the exponent body). -/
def signedDigits : List Char → Bool
  | '+' :: r => !r.isEmpty && digitsOnly r
  | '-' :: r => !r.isEmpty && digitsOnly r
  | r => !r.isEmpty && digitsOnly r

/-- An optional exponent suffix `e`/`E` followed by a signed digit run. -/
def expOk : List Char → Bool
  | [] => true
  | 'e' :: r => signedDigits r
  | 'E' :: r => signedDigits r
  | _ => false

/-- Digits, an optional decimal point with more digits (at least one digit
overall), then an optional exponent. -/
def mantissaOk (l : List Char) : Bool :=
  let d1 := l.takeWhile (·.isDigit)
  let r1 := l.dropWhile (·.isDigit)
  match r1 with
  | '.' :: r2 =>
    let d2 := r2.takeWhile (·.isDigit)
    let r3 := r2.dropWhile (·.isDigit)
    decide (0 < d1.length + d2.length) && expOk r3
  | r => decide (0 < d1.length) && expOk r

/-- Strip one leading sign character. -/
def stripSign : List Char → List Char
  | '+' :: r => r
  | '-' :: r => r
  | r => r

/-- Whether `float(s)` succeeds, for the ASCII literal grammar (optional
sign, decimal mantissa with optional fraction and exponent, or the
special words `inf`/`infinity`/`nan` in any case). -/
def isPyFloat (s : String) : Bool :=
  let l := stripSign s.data
  let low := l.map Char.toLower
  low = "inf".data || low = "infinity".data || low = "nan".data || mantissaOk l

/-- `float(s)` keeping the validated token: the numeric value itself is
irrelevant to every claim, only which token is captured. -/
def pyFloat (s : String) : Except PyErr String :=
  if isPyFloat s then .ok s else .error (.valueError s)

/-! ### Decimal representation facts (`str(number)` = `Nat.repr`) -/

/-- Numeric value of a decimal digit character. -/
def digitVal (c : Char) : Nat := c.toNat - 48

/-- Value of a digit string read most-significant first. -/
def digitsVal (l : List Char) : Nat := l.foldl (fun a c => a * 10 + digitVal c) 0

theorem foldl_digitsVal (a : Nat) (l : List Char) :
    l.foldl (fun a c => a * 10 + digitVal c) a = a * 10 ^ l.length + digitsVal l := by
  induction l generalizing a with
  | nil => simp [digitsVal]
  | cons c cs ih =>
    simp only [List.foldl_cons, List.length_cons, digitsVal]
    rw [ih (a * 10 + digitVal c), ih (0 * 10 + digitVal c)]
    ring

theorem digitsVal_cons (c : Char) (l : List Char) :
    digitsVal (c :: l) = digitVal c * 10 ^ l.length + digitsVal l := by
  have h := foldl_digitsVal (0 * 10 + digitVal c) l
  simpa [digitsVal] using h

theorem digitVal_digitChar (k : Nat) (h : k < 10) :
    digitVal (Nat.digitChar k) = k := by
  interval_cases k <;> rfl

theorem isDigit_digitChar (k : Nat) (h : k < 10) :
    (Nat.digitChar k).isDigit = true := by
  interval_cases k <;> rfl

theorem toDigitsCore_val (fuel n : Nat) (ds : List Char) (hf : n < fuel) :
    digitsVal (Nat.toDigitsCore 10 fuel n ds) = n * 10 ^ ds.length + digitsVal ds := by
  induction fuel generalizing n ds with
  | zero => omega
  | succ fuel ih =>
    simp only [Nat.toDigitsCore]
    by_cases h0 : n / 10 = 0
    · simp only [h0, if_pos]
      have hn : n < 10 := by omega
      simp only [digitsVal, List.foldl_cons]
      rw [foldl_digitsVal]
      have : n % 10 = n := Nat.mod_eq_of_lt hn
      rw [this, digitVal_digitChar n hn]
      simp [digitsVal]
    · rw [if_neg h0]
      have hlt : n / 10 < fuel := by
        have h1 : n / 10 < n := Nat.div_lt_self (by omega) (by omega)
        omega
      rw [ih (n / 10) (Nat.digitChar (n % 10) :: ds) hlt]
      have hmod : n % 10 < 10 := Nat.mod_lt n (by omega)
      rw [digitsVal_cons, digitVal_digitChar (n % 10) hmod, List.length_cons]
      have key : n / 10 * 10 ^ (ds.length + 1) + (n % 10 * 10 ^ ds.length + digitsVal ds)
          = (10 * (n / 10) + n % 10) * 10 ^ ds.length + digitsVal ds := by ring
      rw [key, Nat.div_add_mod n 10]

theorem digitsVal_repr (n : Nat) : digitsVal (Nat.repr n).data = n := by
  have h := toDigitsCore_val (n + 1) n [] (by omega)
  simp only [digitsVal, List.foldl_nil, List.length_nil, pow_zero, mul_one,
    Nat.add_zero] at h
  simpa [Nat.repr, Nat.toDigits, List.asString] using h

theorem repr_injective : Function.Injective Nat.repr := by
  intro m n h
  have : digitsVal (Nat.repr m).data = digitsVal (Nat.repr n).data := by rw [h]
  rwa [digitsVal_repr, digitsVal_repr] at this

theorem toDigitsCore_mem (fuel : Nat) :
    ∀ (n : Nat) (ds : List Char) (c : Char), c ∈ Nat.toDigitsCore 10 fuel n ds →
      c ∈ ds ∨ c.isDigit = true := by
  induction fuel with
  | zero => intro n ds c hc; exact Or.inl hc
  | succ fuel ih =>
    intro n ds c hc
    simp only [Nat.toDigitsCore] at hc
    have hmod : n % 10 < 10 := Nat.mod_lt n (by omega)
    by_cases h0 : n / 10 = 0
    · rw [if_pos h0] at hc
      rcases List.mem_cons.mp hc with h | h
      · exact Or.inr (h ▸ isDigit_digitChar _ hmod)
      · exact Or.inl h
    · rw [if_neg h0] at hc
      rcases ih (n / 10) (Nat.digitChar (n % 10) :: ds) c hc with h | h
      · rcases List.mem_cons.mp h with h' | h'
        · exact Or.inr (h' ▸ isDigit_digitChar _ hmod)
        · exact Or.inl h'
      · exact Or.inr h

/-- Every character of a decimal representation is a digit. -/
theorem repr_isDigit (n : Nat) : ∀ c ∈ (Nat.repr n).data, c.isDigit = true := by
  intro c hc
  have : c ∈ Nat.toDigitsCore 10 (n + 1) n [] := by
    simpa [Nat.repr, Nat.toDigits, List.asString] using hc
  rcases toDigitsCore_mem (n + 1) n [] c this with h | h
  · cases h
  · exact h

theorem toDigitsCore_ne_nil (fuel n : Nat) (ds : List Char) (hf : 0 < fuel) :
    Nat.toDigitsCore 10 fuel n ds ≠ [] := by
  induction fuel generalizing n ds with
  | zero => omega
  | succ fuel ih =>
    simp only [Nat.toDigitsCore]
    by_cases h0 : n / 10 = 0
    · simp [h0]
    · rw [if_neg h0]
      rcases Nat.eq_zero_or_pos fuel with h | h
      · subst h; simp [Nat.toDigitsCore]
      · exact ih (n / 10) _ h

/-- A decimal representation is never the empty string. -/
theorem repr_ne_nil (n : Nat) : (Nat.repr n).data ≠ [] := by
  simpa [Nat.repr, Nat.toDigits, List.asString] using
    toDigitsCore_ne_nil (n + 1) n [] (by omega)

/-! ### Lemmas about word splitting and greedy wrapping -/

theorem wordsAux_append_ws (c : Char) (hc : c.isWhitespace = true) (ys : List Char) :
    ∀ (xs : List Char) (acc : List Char),
      wordsAux acc (xs ++ c :: ys) = wordsAux acc xs ++ wordsAux [] ys := by
  intro xs
  induction xs with
  | nil =>
    intro acc
    simp only [List.nil_append, wordsAux, hc, if_true]
    by_cases h : acc.isEmpty <;> simp [h, wordsAux]
  | cons x xs ih =>
    intro acc
    simp only [List.cons_append, wordsAux]
    by_cases hx : x.isWhitespace
    · simp only [hx, if_true]
      by_cases h : acc.isEmpty <;> simp [h, ih]
    · simp [hx, ih]

theorem wordsAux_noWs : ∀ (l acc : List Char), (∀ c ∈ l, c.isWhitespace = false) →
    wordsAux acc l = if acc.isEmpty && l.isEmpty then [] else [acc.reverse ++ l] := by
  intro l
  induction l with
  | nil =>
    intro acc _
    by_cases h : acc.isEmpty <;> simp [wordsAux, h]
  | cons c cs ih =>
    intro acc hl
    have hc : c.isWhitespace = false := hl c (List.mem_cons_self c cs)
    simp only [wordsAux, hc, Bool.false_eq_true, if_false]
    rw [ih (c :: acc) (fun d hd => hl d (List.mem_cons_of_mem c hd))]
    simp

/-- Splitting across an explicit single-space separator. -/
theorem splitWords_space_sep (s t : String) :
    splitWords (s ++ " " ++ t) = splitWords s ++ splitWords t := by
  simp only [splitWords, String.data_append]
  have h : s.data ++ (" " : String).data ++ t.data = s.data ++ ' ' :: t.data := by
    simp [show (" " : String).data = [' '] from rfl]
  rw [h, wordsAux_append_ws ' ' (by decide) t.data s.data []]
  simp

/-- A nonempty string with no whitespace splits into itself alone. -/
theorem splitWords_word (s : String) (h : ∀ c ∈ s.data, c.isWhitespace = false)
    (hne : s.data ≠ []) : splitWords s = [s] := by
  have hempty : s.data.isEmpty = false := by
    cases hd : s.data with
    | nil => exact absurd hd hne
    | cons a l => rfl
  simp only [splitWords]
  rw [wordsAux_noWs s.data [] h]
  simp only [hempty, Bool.and_false, Bool.false_eq_true, if_false, List.reverse_nil,
    List.nil_append, List.map_cons, List.map_nil]
  exact congrArg (· :: []) rfl

/-- The word list of a record built the way `_alo_record` builds record
strings: the command's words followed by each argument's words. -/
theorem splitWords_foldl (f : String → String) :
    ∀ (args : List String) (cmd : String),
      splitWords (args.foldl (fun s a => s ++ " " ++ f a) cmd)
        = splitWords cmd ++ args.flatMap (fun a => splitWords (f a)) := by
  intro args
  induction args with
  | nil => intro cmd; simp
  | cons a args ih =>
    intro cmd
    simp only [List.foldl_cons, List.flatMap_cons]
    rw [ih (cmd ++ " " ++ f a), splitWords_space_sep]
    simp

/-- The word list of a space-joined word sequence. -/
theorem splitWords_joinSp :
    ∀ l : List String, splitWords (joinSp l) = l.flatMap splitWords := by
  intro l
  induction l with
  | nil =>
    simp only [joinSp, List.flatMap_nil]
    rfl
  | cons w ws ih =>
    cases ws with
    | nil => simp [joinSp]
    | cons x xs =>
      have : joinSp (w :: x :: xs) = w ++ " " ++ joinSp (x :: xs) := rfl
      rw [this, splitWords_space_sep, ih]
      simp

theorem joinSp_concat (w : String) :
    ∀ (xs : List String), xs ≠ [] → joinSp (xs ++ [w]) = joinSp xs ++ " " ++ w := by
  intro xs
  induction xs with
  | nil => intro h; exact absurd rfl h
  | cons x xs ih =>
    intro _
    cases xs with
    | nil => rfl
    | cons y ys =>
      show x ++ " " ++ joinSp ((y :: ys) ++ [w]) = joinSp (x :: y :: ys) ++ " " ++ w
      rw [ih (by simp)]
      show x ++ " " ++ (joinSp (y :: ys) ++ " " ++ w)
          = (x ++ " " ++ joinSp (y :: ys)) ++ " " ++ w
      simp [String.append_assoc]

theorem length_joinSp_concat (w : String) (xs : List String) (h : xs ≠ []) :
    (joinSp (xs ++ [w])).length = (joinSp xs).length + 1 + w.length := by
  rw [joinSp_concat w xs h]
  simp only [String.length_append]
  have hsp : (" " : String).length = 1 := rfl
  omega

/-! ### Facts about `textwrap.wrap` on the serializer's records -/

/-- Lean's whitespace class is contained in Python's. -/
theorem isPyWs_of_isWhitespace (c : Char) (h : c.isWhitespace = true) :
    isPyWs c = true := by
  simp only [Char.isWhitespace, Bool.or_eq_true, decide_eq_true_eq] at h
  simp only [isPyWs, Bool.or_eq_true, decide_eq_true_eq]
  tauto

theorem foldl_append_str : ∀ (l : List String) (s : String),
    l.foldl (· ++ ·) s = s ++ joinStr l := by
  intro l
  induction l with
  | nil => intro s; simp [joinStr]
  | cons c cs ih =>
    intro s
    show cs.foldl (· ++ ·) (s ++ c) = s ++ joinStr (c :: cs)
    rw [ih (s ++ c)]
    show s ++ c ++ joinStr cs = s ++ cs.foldl (· ++ ·) ("" ++ c)
    rw [ih ("" ++ c)]
    simp [String.append_assoc]

theorem joinStr_cons (c : String) (cs : List String) :
    joinStr (c :: cs) = c ++ joinStr cs := by
  show cs.foldl (· ++ ·) ("" ++ c) = c ++ joinStr cs
  rw [foldl_append_str cs ("" ++ c)]
  simp

/-- A joined line's length is the sum of its chunks' lengths. -/
theorem length_joinStr : ∀ l : List String,
    (joinStr l).length = (l.map String.length).sum := by
  intro l
  induction l with
  | nil => rfl
  | cons c cs ih => rw [joinStr_cons]; simp [ih]

theorem data_joinStr : ∀ l : List String,
    (joinStr l).data = (l.map String.data).flatten := by
  intro l
  induction l with
  | nil => rfl
  | cons c cs ih => rw [joinStr_cons]; simp [String.data_append, ih]

/-- Greedy packing splits the chunk list. -/
theorem greedyTake_append (width : Nat) : ∀ (l : List String) (k : Nat),
    (greedyTake width k l).1 ++ (greedyTake width k l).2 = l := by
  intro l
  induction l with
  | nil => intro k; rfl
  | cons c cs ih =>
    intro k
    simp only [greedyTake]
    by_cases h : k + c.length ≤ width
    · simp only [h, if_true, List.cons_append]
      simp [ih]
    · simp [h]

/-- The chunks greedily taken (if any) fit the width together with the
length already on the line. -/
theorem greedyTake_sum (width : Nat) : ∀ (l : List String) (k : Nat),
    (greedyTake width k l).1 ≠ [] →
    k + (((greedyTake width k l).1).map String.length).sum ≤ width := by
  intro l
  induction l with
  | nil => intro k h; exact absurd rfl h
  | cons c cs ih =>
    intro k h
    simp only [greedyTake] at h ⊢
    by_cases hc : k + c.length ≤ width
    · simp only [hc, if_true]
      by_cases hn : (greedyTake width (k + c.length) cs).1 = []
      · simp [hn, hc]
      · have := ih (k + c.length) hn
        simp only [List.map_cons, List.sum_cons]
        omega
    · simp only [hc, if_false] at h
      exact absurd rfl h

theorem dropTrailWs_sum_le : ∀ l : List String,
    ((dropTrailWs l).map String.length).sum ≤ (l.map String.length).sum := by
  intro l
  induction l with
  | nil => simp [dropTrailWs]
  | cons c cs ih =>
    cases cs with
    | nil =>
      by_cases h : strAllWs c <;> simp [dropTrailWs, h]
    | cons d ds =>
      show ((c :: dropTrailWs (d :: ds)).map String.length).sum ≤ _
      simp only [List.map_cons, List.sum_cons] at ih ⊢
      omega

/-- Dropping a trailing whitespace chunk does not change the non-whitespace
chunks. -/
theorem filter_dropTrailWs : ∀ l : List String,
    (dropTrailWs l).filter (fun c => !strAllWs c) = l.filter (fun c => !strAllWs c) := by
  intro l
  induction l with
  | nil => rfl
  | cons c cs ih =>
    cases cs with
    | nil =>
      by_cases h : strAllWs c <;> simp [dropTrailWs, h, List.filter]
    | cons d ds =>
      show (c :: dropTrailWs (d :: ds)).filter _ = _
      rw [List.filter_cons, List.filter_cons, ih]

theorem dropTrailWs_pref : ∀ l : List String, dropTrailWs l <+: l := by
  intro l
  induction l with
  | nil => exact List.prefix_refl _
  | cons c cs ih =>
    cases cs with
    | nil =>
      by_cases h : strAllWs c <;> simp [dropTrailWs, h]
    | cons d ds =>
      show c :: dropTrailWs (d :: ds) <+: c :: d :: ds
      exact List.cons_prefix_cons.mpr ⟨rfl, ih⟩

/-- A line-building step splits the worklist: taken chunks then rest. -/
theorem wrapStep_append (width : Nat) (work : List String) :
    (wrapStep width work).1 ++ (wrapStep width work).2 = work := by
  unfold wrapStep
  rcases hg : greedyTake width 0 work with ⟨cur, rest⟩
  have hw : cur ++ rest = work := by
    have := greedyTake_append width work 0
    rw [hg] at this; exact this
  cases cur with
  | nil =>
    cases rest with
    | nil => simpa [handleLong] using hw
    | cons c r =>
      by_cases h : width < c.length <;> simpa [handleLong, h] using hw
  | cons x xs => simpa [handleLong] using hw

/-- On a nonempty worklist a step always takes at least one chunk (an
over-wide first chunk is taken whole by the long-word rule). -/
theorem wrapStep_ne_nil (width : Nat) (work : List String) (h : work ≠ []) :
    (wrapStep width work).1 ≠ [] := by
  unfold wrapStep
  cases work with
  | nil => exact absurd rfl h
  | cons c cs =>
    simp only [greedyTake]
    by_cases hc : 0 + c.length ≤ width
    · simp only [hc, if_true]
      simp [handleLong]
    · have hlt : width < c.length := by omega
      have hle : ¬ c.length ≤ width := by omega
      simp [hle, handleLong, hlt]

/-- If every non-whitespace chunk fits the width then so does every
emitted line: a greedily packed line fits by construction, and a
long-word line must consist of one over-wide whitespace chunk, which the
trailing-whitespace rule removes. -/
theorem wrapStep_line_len (width : Nat) (work : List String)
    (hch : ∀ ch ∈ work, strAllWs ch = false → ch.length ≤ width)
    (hne : dropTrailWs (wrapStep width work).1 ≠ []) :
    (joinStr (dropTrailWs (wrapStep width work).1)).length ≤ width := by
  rw [length_joinStr]
  unfold wrapStep at hne ⊢
  rcases hg : greedyTake width 0 work with ⟨cur, rest⟩
  rw [hg] at hne
  cases cur with
  | nil =>
    cases rest with
    | nil => simp [handleLong, dropTrailWs] at hne
    | cons c r =>
      by_cases h : width < c.length
      · -- the long chunk is emitted alone; it must be whitespace, so it is dropped
        simp only [handleLong, h, if_true] at hne ⊢
        by_cases hws : strAllWs c
        · simp [dropTrailWs, hws] at hne
        · have hcw : c ∈ work := by
            have := greedyTake_append width work 0
            rw [hg] at this
            rw [← this]; simp
          have := hch c hcw (by simpa using hws)
          omega
      · simp [handleLong, h, dropTrailWs] at hne
  | cons x xs =>
    simp only [handleLong] at hne ⊢
    have hsum : 0 + ((x :: xs).map String.length).sum ≤ width := by
      have := greedyTake_sum width work 0
      rw [hg] at this
      exact this (by simp)
    have hd := dropTrailWs_sum_le (x :: xs)
    omega

theorem wrapStep_mem (width : Nat) (work : List String) :
    (∀ x ∈ (wrapStep width work).1, x ∈ work) ∧
    (∀ x ∈ (wrapStep width work).2, x ∈ work) := by
  constructor <;> intro x hx <;>
    rw [← wrapStep_append width work] <;> simp [hx]

/-- Every line of `_wrap_chunks` output fits the width, provided every
non-whitespace chunk does. -/
theorem wrapChunksAux_len (width : Nat) : ∀ (fuel : Nat) (chunks acc : List String),
    (∀ ch ∈ chunks, strAllWs ch = false → ch.length ≤ width) →
    (∀ l ∈ acc, l.length ≤ width) →
    ∀ l ∈ wrapChunksAux width fuel chunks acc, l.length ≤ width := by
  intro fuel
  induction fuel with
  | zero =>
    intro chunks acc _ hacc l hl
    simp only [wrapChunksAux, List.mem_reverse] at hl
    exact hacc l hl
  | succ fuel ih =>
    intro chunks acc hch hacc l hl
    cases chunks with
    | nil =>
      simp only [wrapChunksAux, List.mem_reverse] at hl
      exact hacc l hl
    | cons c0 rest0 =>
      rw [wrapChunksAux] at hl
      set work := if strAllWs c0 && !acc.isEmpty then rest0 else c0 :: rest0 with hwork
      have hwmem : ∀ x ∈ work, x ∈ c0 :: rest0 := by
        intro x hx
        rw [hwork] at hx
        by_cases hc : strAllWs c0 && !acc.isEmpty
        · rw [if_pos hc] at hx; exact List.mem_cons_of_mem _ hx
        · rwa [if_neg hc] at hx
      have hwch : ∀ ch ∈ work, strAllWs ch = false → ch.length ≤ width :=
        fun ch hc => hch ch (hwmem ch hc)
      refine ih (wrapStep width work).2 _ ?_ ?_ l hl
      · intro ch hc
        exact hwch ch ((wrapStep_mem width work).2 ch hc)
      · intro x hx
        by_cases hne : (dropTrailWs (wrapStep width work).1).isEmpty
        · rw [if_pos hne] at hx
          exact hacc x hx
        · rw [if_neg hne] at hx
          rcases List.mem_cons.mp hx with rfl | hx'
          · exact wrapStep_line_len width work hwch
              (by simpa [List.isEmpty_iff] using hne)
          · exact hacc x hx'

/-- A well-formed chunk of a munged plain text: nonempty, and either all
spaces or free of whitespace. -/
def chunkOk (s : String) : Prop :=
  s.data ≠ [] ∧ ((∀ c ∈ s.data, c = ' ') ∨ (∀ c ∈ s.data, isPyWs c = false))

theorem strAllWs_of_spaces (s : String) (h : ∀ c ∈ s.data, c = ' ') :
    strAllWs s = true := by
  simp only [strAllWs, List.all_eq_true]
  intro c hc
  rw [h c hc]; rfl

theorem strAllWs_word (s : String) (hne : s.data ≠ [])
    (h : ∀ c ∈ s.data, isPyWs c = false) : strAllWs s = false := by
  cases hd : s.data with
  | nil => exact absurd hd hne
  | cons c cs =>
    simp only [strAllWs, hd, List.all_cons]
    rw [h c (by rw [hd]; simp)]
    rfl

/-- A leading whitespace run does not contribute words. -/
theorem wordsAux_ws_pre : ∀ (p : List Char), (∀ c ∈ p, c.isWhitespace = true) →
    ∀ x, wordsAux [] (p ++ x) = wordsAux [] x := by
  intro p
  induction p with
  | nil => intro _ x; rfl
  | cons c cs ih =>
    intro hp x
    have hc : c.isWhitespace = true := hp c (List.mem_cons_self c cs)
    simp only [List.cons_append, wordsAux, hc, if_true, List.isEmpty_nil]
    exact ih (fun d hd => hp d (List.mem_cons_of_mem c hd)) x

theorem splitWords_ws_append (p t : String) (hp : ∀ c ∈ p.data, c.isWhitespace = true) :
    splitWords (p ++ t) = splitWords t := by
  simp only [splitWords, String.data_append]
  rw [wordsAux_ws_pre p.data hp t.data]

/-- A leading whitespace-free word followed by whitespace (or nothing)
heads the word list. -/
theorem splitWords_word_append (w t : String) (hw : w.data ≠ [])
    (hnw : ∀ c ∈ w.data, c.isWhitespace = false)
    (ht : t.data = [] ∨ ∃ d td, t.data = d :: td ∧ d.isWhitespace = true) :
    splitWords (w ++ t) = w :: splitWords t := by
  rcases ht with ht | ⟨d, td, ht, hd⟩
  · have hte : t = "" := by
      cases t with
      | mk l => cases ht; rfl
    subst hte
    rw [String.append_empty]
    rw [splitWords_word w hnw hw]
    rfl
  · simp only [splitWords, String.data_append, ht]
    rw [wordsAux_append_ws d hd td w.data []]
    rw [wordsAux_noWs w.data [] hnw]
    have hempty : w.data.isEmpty = false := by
      cases hx : w.data with
      | nil => exact absurd hx hw
      | cons a l => rfl
    simp only [List.isEmpty_nil, Bool.true_and, hempty, Bool.false_eq_true, if_false,
      List.reverse_nil, List.nil_append, List.map_append, List.map_cons, List.map_nil]
    show [w.data.asString] ++ (wordsAux [] td).map List.asString
        = w :: (wordsAux [] (d :: td)).map List.asString
    rw [show wordsAux [] (d :: td) = wordsAux [] td by
      simp [wordsAux, hd]]
    rw [show w.data.asString = w from rfl]
    rfl

/-- The words of a line joined from alternating space/word chunks are
exactly its word chunks. -/
theorem splitWords_joinStr : ∀ (l : List String),
    (∀ ch ∈ l, chunkOk ch) →
    l.Chain' (fun a b => strAllWs a ≠ strAllWs b) →
    splitWords (joinStr l) = l.filter (fun c => !strAllWs c) := by
  intro l
  induction l with
  | nil => intro _ _; rfl
  | cons ch rest ih =>
    intro hok hch
    obtain ⟨hne, hkind⟩ := hok ch (List.mem_cons_self _ _)
    rw [joinStr_cons]
    have hrest_ok : ∀ x ∈ rest, chunkOk x :=
      fun x hx => hok x (List.mem_cons_of_mem _ hx)
    have hrest_ch : rest.Chain' (fun a b => strAllWs a ≠ strAllWs b) := hch.tail
    rcases hkind with hws | hwd
    · have hlw : ∀ c ∈ ch.data, c.isWhitespace = true := by
        intro c hc; rw [hws c hc]; decide
      rw [splitWords_ws_append ch (joinStr rest) hlw, ih hrest_ok hrest_ch]
      simp [List.filter_cons, strAllWs_of_spaces ch hws]
    · have hlnw : ∀ c ∈ ch.data, c.isWhitespace = false := by
        intro c hc
        by_cases h : c.isWhitespace
        · have := isPyWs_of_isWhitespace c h
          rw [hwd c hc] at this
          exact Bool.noConfusion this
        · simpa using h
      have hall : strAllWs ch = false := strAllWs_word ch hne hwd
      have hnext : (joinStr rest).data = []
          ∨ ∃ d td, (joinStr rest).data = d :: td ∧ d.isWhitespace = true := by
        cases rest with
        | nil => left; rfl
        | cons ch2 rest2 =>
          right
          obtain ⟨hne2, hkind2⟩ := hok ch2 (by simp)
          have hrel : strAllWs ch ≠ strAllWs ch2 := (List.chain'_cons.mp hch).1
          rw [hall] at hrel
          have hall2 : strAllWs ch2 = true := by
            cases h2 : strAllWs ch2 with
            | false => exact absurd h2.symm hrel
            | true => rfl
          have hws2 : ∀ c ∈ ch2.data, c = ' ' := by
            rcases hkind2 with h2 | h2
            · exact h2
            · rw [strAllWs_word ch2 hne2 h2] at hall2
              exact Bool.noConfusion hall2
          rw [joinStr_cons]
          cases hd2 : ch2.data with
          | nil => exact absurd hd2 hne2
          | cons d td =>
            refine ⟨d, td ++ (joinStr rest2).data, ?_, ?_⟩
            · rw [String.data_append, hd2]; rfl
            · rw [hws2 d (by rw [hd2]; simp)]; decide
      rw [splitWords_word_append ch (joinStr rest) hne hlnw hnext,
        ih hrest_ok hrest_ch]
      simp [List.filter_cons, hall]

/-- `_wrap_chunks` never splits a chunk: over alternating space/word
chunks, the words of the output lines, in order, are exactly the word
chunks. -/
theorem wrapChunksAux_flatten (width : Nat) : ∀ (fuel : Nat) (chunks acc : List String),
    chunks.length ≤ fuel →
    (∀ ch ∈ chunks, chunkOk ch) →
    chunks.Chain' (fun a b => strAllWs a ≠ strAllWs b) →
    (wrapChunksAux width fuel chunks acc).flatMap splitWords
      = acc.reverse.flatMap splitWords ++ chunks.filter (fun c => !strAllWs c) := by
  intro fuel
  induction fuel with
  | zero =>
    intro chunks acc hlen _ _
    have hnil : chunks = [] := List.length_eq_zero.mp (Nat.le_zero.mp hlen)
    subst hnil
    simp [wrapChunksAux]
  | succ fuel ih =>
    intro chunks acc hlen hok hch
    cases chunks with
    | nil => simp [wrapChunksAux]
    | cons c0 rest0 =>
      rw [wrapChunksAux]
      set work := if strAllWs c0 && !acc.isEmpty then rest0 else c0 :: rest0 with hwork
      have hwork_cases : (work = rest0 ∧ strAllWs c0 = true) ∨ work = c0 :: rest0 := by
        by_cases hcond : strAllWs c0 && !acc.isEmpty
        · refine Or.inl ⟨by rw [hwork, if_pos hcond], ?_⟩
          cases h0 : strAllWs c0 with
          | true => rfl
          | false => rw [h0] at hcond; simp at hcond
        · exact Or.inr (by rw [hwork, if_neg hcond])
      have hwork_filter : work.filter (fun c => !strAllWs c)
          = (c0 :: rest0).filter (fun c => !strAllWs c) := by
        rcases hwork_cases with ⟨hw, hc0⟩ | hw
        · rw [hw, List.filter_cons]; simp [hc0]
        · rw [hw]
      have hwork_ok : ∀ ch ∈ work, chunkOk ch := by
        rcases hwork_cases with ⟨hw, _⟩ | hw
        · rw [hw]; exact fun x hx => hok x (List.mem_cons_of_mem _ hx)
        · rw [hw]; exact hok
      have hwork_ch : work.Chain' (fun a b => strAllWs a ≠ strAllWs b) := by
        rcases hwork_cases with ⟨hw, _⟩ | hw
        · rw [hw]; exact hch.tail
        · rw [hw]; exact hch
      have happ := wrapStep_append width work
      have hcur_pref : (wrapStep width work).1 <+: work := ⟨_, happ⟩
      have hrest_suff : (wrapStep width work).2 <:+ work := ⟨_, happ⟩
      have hrest_len : (wrapStep width work).2.length ≤ fuel := by
        rcases hwork_cases with ⟨hw, _⟩ | hw
        · have h1 : work.length ≤ fuel := by
            rw [hw]
            have : rest0.length + 1 ≤ fuel + 1 := by simpa using hlen
            omega
          have h2 : (wrapStep width work).2.length ≤ work.length := by
            conv_rhs => rw [← happ]
            simp
          omega
        · have hne : (wrapStep width work).1 ≠ [] :=
            wrapStep_ne_nil width work (by rw [hw]; simp)
          have h2 : (wrapStep width work).1.length + (wrapStep width work).2.length
              = work.length := by
            conv_rhs => rw [← happ]
            simp
          have h3 : 1 ≤ (wrapStep width work).1.length := by
            cases hx : (wrapStep width work).1 with
            | nil => exact absurd hx hne
            | cons a l => simp
          have h4 : work.length ≤ fuel + 1 := by rw [hw]; simpa using hlen
          omega
      have hline : ((if (dropTrailWs (wrapStep width work).1).isEmpty then acc
            else joinStr (dropTrailWs (wrapStep width work).1) :: acc)).reverse.flatMap
              splitWords
          = acc.reverse.flatMap splitWords
            ++ ((wrapStep width work).1).filter (fun c => !strAllWs c) := by
        have hcur_ok : ∀ ch ∈ dropTrailWs (wrapStep width work).1, chunkOk ch := by
          intro x hx
          exact hwork_ok x (hcur_pref.subset ((dropTrailWs_pref _).subset hx))
        have hcur_ch0 : ((wrapStep width work).1).Chain'
            (fun a b => strAllWs a ≠ strAllWs b) :=
          List.Chain'.prefix hwork_ch hcur_pref
        have hcur_ch : (dropTrailWs (wrapStep width work).1).Chain'
            (fun a b => strAllWs a ≠ strAllWs b) :=
          List.Chain'.prefix hcur_ch0 (dropTrailWs_pref _)
        by_cases hemp : (dropTrailWs (wrapStep width work).1).isEmpty
        · rw [if_pos hemp]
          have hf : (wrapStep width work).1.filter (fun c => !strAllWs c) = [] := by
            rw [← filter_dropTrailWs, List.isEmpty_iff.mp hemp]
            rfl
          simp [hf]
        · rw [if_neg hemp, List.reverse_cons, List.flatMap_append]
          simp only [List.flatMap_cons, List.flatMap_nil, List.append_nil]
          rw [splitWords_joinStr _ hcur_ok hcur_ch, filter_dropTrailWs]
      rw [ih (wrapStep width work).2 _ hrest_len
        (fun x hx => hwork_ok x (hrest_suff.subset hx))
        (hwork_ch.suffix hrest_suff)]
      rw [hline, ← hwork_filter, List.append_assoc]
      congr 1
      rw [← List.filter_append, happ]

/-- The chunk list of a hyphen-free text: maximal whitespace and
non-whitespace runs, alternating (fuelled by the text length). -/
def chunksOf : Nat → List Char → List (List Char)
  | 0, _ => []
  | _ + 1, [] => []
  | fuel + 1, c :: r =>
    if isPyWs c then
      (c :: r.takeWhile isPyWs) :: chunksOf fuel (r.dropWhile isPyWs)
    else
      (c :: r.takeWhile (fun x => !isPyWs x)) :: chunksOf fuel (r.dropWhile (fun x => !isPyWs x))

theorem chunksOf_nil : ∀ fuel, chunksOf fuel [] = [] := by
  intro fuel
  cases fuel <;> rfl

theorem chunksOf_mono : ∀ (f : Nat) (l : List Char) (g : Nat),
    l.length ≤ f → l.length ≤ g → chunksOf f l = chunksOf g l := by
  intro f
  induction f with
  | zero =>
    intro l g hf _
    have hnil : l = [] := List.length_eq_zero.mp (Nat.le_zero.mp hf)
    subst hnil
    rw [chunksOf_nil, chunksOf_nil]
  | succ f ihf =>
    intro l g hf hg
    cases l with
    | nil => rw [chunksOf_nil, chunksOf_nil]
    | cons c r =>
      cases g with
      | zero => simp at hg
      | succ g =>
        have hrf : r.length ≤ f := by simp at hf; omega
        have hrg : r.length ≤ g := by simp at hg; omega
        by_cases hc : isPyWs c = true
        · simp only [chunksOf, hc, if_true]
          rw [ihf (r.dropWhile isPyWs) g
            (le_trans (List.Sublist.length_le (List.dropWhile_sublist _)) hrf)
            (le_trans (List.Sublist.length_le (List.dropWhile_sublist _)) hrg)]
        · simp only [chunksOf, hc, if_false]
          rw [ihf (r.dropWhile (fun x => !isPyWs x)) g
            (le_trans (List.Sublist.length_le (List.dropWhile_sublist _)) hrf)
            (le_trans (List.Sublist.length_le (List.dropWhile_sublist _)) hrg)]
          simp

theorem dropWhile_head_neg {α : Type} {p : α → Bool} : ∀ (l : List α) (c : α) (t : List α),
    l.dropWhile p = c :: t → p c = false := by
  intro l
  induction l with
  | nil => intro c t h; simp at h
  | cons a as ih =>
    intro c t h
    rw [List.dropWhile_cons] at h
    by_cases ha : p a = true
    · rw [if_pos ha] at h; exact ih c t h
    · rw [if_neg ha] at h
      cases h
      simpa using ha

/-- The first chunk of a nonempty text is whitespace-homogeneous with the
text's first character. -/
theorem chunksOf_head_all : ∀ (fuel : Nat) (d : Char) (t : List Char), 1 ≤ fuel →
    ∃ ch tail, chunksOf fuel (d :: t) = ch :: tail ∧ ch.all isPyWs = isPyWs d := by
  intro fuel d t h1
  cases fuel with
  | zero => omega
  | succ f =>
    by_cases hd : isPyWs d = true
    · refine ⟨d :: t.takeWhile isPyWs, chunksOf f (t.dropWhile isPyWs), by simp [chunksOf, hd], ?_⟩
      rw [hd]
      simp only [List.all_cons, hd, Bool.true_and, List.all_eq_true]
      intro c hc
      exact List.mem_takeWhile_imp hc
    · refine ⟨d :: t.takeWhile (fun x => !isPyWs x),
        chunksOf f (t.dropWhile (fun x => !isPyWs x)), by simp [chunksOf, hd], ?_⟩
      simp only [List.all_cons]
      rw [show isPyWs d = false by simpa using hd]
      rfl

/-- On hyphen-free text the word branch consumes exactly the leading
non-whitespace run: the hyphen and em-dash stops never fire. -/
theorem wordChunkAux_plain : ∀ (fuel : Nat) (rest : List Char), rest.length ≤ fuel →
    (∀ c ∈ rest, c ≠ '-') → ∀ (pr acc : List Char),
    wordChunkAux fuel pr acc rest
      = (acc.reverse ++ rest.takeWhile (fun x => !isPyWs x),
         rest.dropWhile (fun x => !isPyWs x)) := by
  intro fuel
  induction fuel with
  | zero =>
    intro rest hlen _ pr acc
    have hnil : rest = [] := List.length_eq_zero.mp (Nat.le_zero.mp hlen)
    subst hnil
    simp [wordChunkAux]
  | succ fuel ih =>
    intro rest hlen hnh pr acc
    cases rest with
    | nil => simp [wordChunkAux]
    | cons c r =>
      have hc : c ≠ '-' := hnh c (by simp)
      have hhr : hyphRun (c :: r) = (0, c :: r) := by simp [hyphRun, hc]
      have hC : emDashAhead (c :: r) = false := by
        simp [emDashAhead, hhr]
      by_cases hw : isPyWs c = true
      · rw [wordChunkAux]
        simp [hc, hw, List.takeWhile_cons, List.dropWhile_cons]
      · rw [wordChunkAux]
        simp only [show (decide (c = '-')) = false by simp [hc], Bool.false_and,
          Bool.false_eq_true, if_false, hw, hC, Bool.and_false]
        rw [ih r (by simp at hlen; omega) (fun d hd => hnh d (by simp [hd])) (c :: pr) (c :: acc)]
        simp [List.takeWhile_cons, List.dropWhile_cons, hw]

/-- On hyphen-free text the `wordsep_re` chunker degenerates to the
alternating run decomposition. -/
theorem splitChunksAux_plain : ∀ (fuel : Nat) (l : List Char), l.length ≤ fuel →
    (∀ c ∈ l, c ≠ '-') → ∀ (pr : List Char) (out : List (List Char)),
    splitChunksAux fuel pr l out = out.reverse ++ chunksOf l.length l := by
  intro fuel
  induction fuel with
  | zero =>
    intro l hlen _ pr out
    have hnil : l = [] := List.length_eq_zero.mp (Nat.le_zero.mp hlen)
    subst hnil
    simp [splitChunksAux, chunksOf_nil]
  | succ fuel ih =>
    intro l hlen hnh pr out
    cases l with
    | nil => simp [splitChunksAux, chunksOf_nil]
    | cons c r =>
      have hc : c ≠ '-' := hnh c (by simp)
      have hhr : hyphRun (c :: r) = (0, c :: r) := by simp [hyphRun, hc]
      have hC : emDashAhead (c :: r) = false := by simp [emDashAhead, hhr]
      have hrlen : r.length ≤ fuel := by simp at hlen; omega
      by_cases hw : isPyWs c = true
      · rw [splitChunksAux]
        simp only [hw, if_true]
        rw [ih (r.dropWhile isPyWs)
          (le_trans (List.Sublist.length_le (List.dropWhile_sublist _)) hrlen)
          (fun d hd => hnh d (List.mem_cons_of_mem _ ((List.dropWhile_sublist _).subset hd)))]
        rw [show ((c :: r).length) = r.length + 1 from by simp]
        simp only [chunksOf, hw, if_true]
        rw [chunksOf_mono r.length (r.dropWhile isPyWs)
          (r.dropWhile isPyWs).length
          (List.Sublist.length_le (List.dropWhile_sublist _)) (le_refl _)]
        simp
      · rw [splitChunksAux]
        simp only [hw, Bool.false_eq_true, if_false, hC, Bool.and_false]
        rw [wordChunkAux_plain r.length r (le_refl _)
          (fun d hd => hnh d (List.mem_cons_of_mem _ hd)) (c :: pr) [c]]
        simp only [List.reverse_cons, List.reverse_nil, List.nil_append]
        rw [ih (r.dropWhile (fun x => !isPyWs x))
          (le_trans (List.Sublist.length_le (List.dropWhile_sublist _)) hrlen)
          (fun d hd => hnh d (List.mem_cons_of_mem _ ((List.dropWhile_sublist _).subset hd)))]
        rw [show ((c :: r).length) = r.length + 1 from by simp]
        simp only [chunksOf, hw, Bool.false_eq_true, if_false]
        rw [chunksOf_mono r.length (r.dropWhile (fun x => !isPyWs x))
          (r.dropWhile (fun x => !isPyWs x)).length
          (List.Sublist.length_le (List.dropWhile_sublist _)) (le_refl _)]
        simp

theorem nonPyWs_not_ws (c : Char) (h : isPyWs c = false) : c.isWhitespace = false := by
  by_cases hw : c.isWhitespace
  · rw [isPyWs_of_isWhitespace c (by simpa using hw)] at h
    exact Bool.noConfusion h
  · simpa using hw

/-- The run decomposition of a text whose whitespace is plain spaces: its
non-whitespace chunks are exactly the text's words, every chunk is
nonempty and homogeneous, and chunk kinds alternate. -/
theorem chunksOf_spec : ∀ (fuel : Nat) (l : List Char), l.length ≤ fuel →
    (∀ c ∈ l, isPyWs c = true → c = ' ') →
    ((chunksOf fuel l).filter (fun ch => !ch.all isPyWs) = wordsAux [] l)
    ∧ (∀ ch ∈ chunksOf fuel l,
        ch ≠ [] ∧ ((∀ c ∈ ch, c = ' ') ∨ (∀ c ∈ ch, isPyWs c = false)))
    ∧ (chunksOf fuel l).Chain' (fun a b => a.all isPyWs ≠ b.all isPyWs) := by
  intro fuel
  induction fuel with
  | zero =>
    intro l hlen _
    have hnil : l = [] := List.length_eq_zero.mp (Nat.le_zero.mp hlen)
    subst hnil
    refine ⟨rfl, ?_, by simp [chunksOf_nil]⟩
    intro ch hch
    simp [chunksOf_nil] at hch
  | succ fuel ih =>
    intro l hlen hpl
    cases l with
    | nil =>
      refine ⟨rfl, ?_, by simp [chunksOf_nil]⟩
      intro ch hch
      simp [chunksOf_nil] at hch
    | cons c r =>
      have hrlen : r.length ≤ fuel := by simp at hlen; omega
      by_cases hw : isPyWs c = true
      · -- whitespace run chunk
        have hcsp : c = ' ' := hpl c (by simp) hw
        have htall : ∀ x ∈ r.takeWhile isPyWs, isPyWs x = true :=
          fun x hx => List.mem_takeWhile_imp hx
        have hchunk_all : (c :: r.takeWhile isPyWs).all isPyWs = true := by
          simp only [List.all_cons, hw, Bool.true_and, List.all_eq_true]
          exact htall
        have hrest_len : (r.dropWhile isPyWs).length ≤ fuel :=
          le_trans (List.Sublist.length_le (List.dropWhile_sublist _)) hrlen
        have hrest_hyp : ∀ x ∈ r.dropWhile isPyWs, isPyWs x = true → x = ' ' :=
          fun x hx => hpl x (List.mem_cons_of_mem _ ((List.dropWhile_sublist _).subset hx))
        obtain ⟨ih1, ih2, ih3⟩ := ih (r.dropWhile isPyWs) hrest_len hrest_hyp
        simp only [chunksOf, hw, if_true]
        refine ⟨?_, ?_, ?_⟩
        · rw [List.filter_cons]
          simp only [hchunk_all, Bool.not_true, Bool.false_eq_true, if_false]
          rw [ih1]
          have hr : r = r.takeWhile isPyWs ++ r.dropWhile isPyWs :=
            (List.takeWhile_append_dropWhile _ _).symm
          have hstep : wordsAux [] (c :: r) = wordsAux [] r := by
            subst hcsp
            simp [wordsAux]
          rw [hstep]
          conv_rhs => rw [hr]
          rw [wordsAux_ws_pre (r.takeWhile isPyWs)
            (fun x hx => by
              rw [hpl x (List.mem_cons_of_mem _ ((List.takeWhile_sublist _).subset hx))
                (htall x hx)]
              decide)
            (r.dropWhile isPyWs)]
        · intro ch hch
          rcases List.mem_cons.mp hch with rfl | hch'
          · refine ⟨by simp, Or.inl ?_⟩
            intro x hx
            rcases List.mem_cons.mp hx with rfl | hx'
            · exact hcsp
            · exact hpl x (List.mem_cons_of_mem _ ((List.takeWhile_sublist _).subset hx'))
                (htall x hx')
          · exact ih2 ch hch'
        · rw [List.chain'_cons']
          refine ⟨?_, ih3⟩
          intro y hy
          cases hrest : r.dropWhile isPyWs with
          | nil => rw [hrest, chunksOf_nil] at hy; simp at hy
          | cons d t' =>
            have hfuel1 : 1 ≤ fuel := by
              have : (d :: t').length ≤ fuel := by rw [← hrest]; exact hrest_len
              simp at this; omega
            obtain ⟨ch2, tail2, heq, hall2⟩ := chunksOf_head_all fuel d t' hfuel1
            rw [hrest, heq] at hy
            simp only [List.head?_cons, Option.mem_some_iff] at hy
            subst hy
            rw [hchunk_all, hall2, dropWhile_head_neg r d t' hrest]
            simp
      · -- word chunk
        have hwf : isPyWs c = false := by simpa using hw
        have htall : ∀ x ∈ r.takeWhile (fun x => !isPyWs x), isPyWs x = false :=
          fun x hx => by simpa using List.mem_takeWhile_imp hx
        have hchunk_nw : ∀ x ∈ c :: r.takeWhile (fun x => !isPyWs x), isPyWs x = false := by
          intro x hx
          rcases List.mem_cons.mp hx with rfl | hx'
          · exact hwf
          · exact htall x hx'
        have hchunk_all : (c :: r.takeWhile (fun x => !isPyWs x)).all isPyWs = false := by
          simp only [List.all_cons, hwf, Bool.false_and]
        have hchunk_noWsL : ∀ x ∈ c :: r.takeWhile (fun x => !isPyWs x),
            x.isWhitespace = false :=
          fun x hx => nonPyWs_not_ws x (hchunk_nw x hx)
        have hrest_len : (r.dropWhile (fun x => !isPyWs x)).length ≤ fuel :=
          le_trans (List.Sublist.length_le (List.dropWhile_sublist _)) hrlen
        have hrest_hyp : ∀ x ∈ r.dropWhile (fun x => !isPyWs x), isPyWs x = true → x = ' ' :=
          fun x hx => hpl x (List.mem_cons_of_mem _ ((List.dropWhile_sublist _).subset hx))
        obtain ⟨ih1, ih2, ih3⟩ := ih (r.dropWhile (fun x => !isPyWs x)) hrest_len hrest_hyp
        simp only [chunksOf, hwf, Bool.false_eq_true, if_false]
        have hsplit : c :: r
            = (c :: r.takeWhile (fun x => !isPyWs x)) ++ r.dropWhile (fun x => !isPyWs x) := by
          rw [List.cons_append, List.takeWhile_append_dropWhile]
        refine ⟨?_, ?_, ?_⟩
        · rw [List.filter_cons]
          simp only [hchunk_all, Bool.not_false, if_true]
          rw [ih1]
          conv_rhs => rw [hsplit]
          cases hrest : r.dropWhile (fun x => !isPyWs x) with
          | nil =>
            rw [List.append_nil, wordsAux_noWs _ [] hchunk_noWsL]
            simp [wordsAux]
          | cons d t' =>
            have hdws : isPyWs d = true := by
              have := dropWhile_head_neg r d t' hrest
              simpa using this
            have hdsp : d = ' ' :=
              hrest_hyp d (by rw [hrest]; simp) hdws
            have hdwsL : d.isWhitespace = true := by rw [hdsp]; decide
            rw [wordsAux_append_ws d hdwsL t' _ []]
            rw [wordsAux_noWs _ [] hchunk_noWsL]
            have hstep : wordsAux [] (d :: t') = wordsAux [] t' := by
              subst hdsp
              simp [wordsAux]
            rw [hstep]
            simp
        · intro ch hch
          rcases List.mem_cons.mp hch with rfl | hch'
          · exact ⟨by simp, Or.inr hchunk_nw⟩
          · exact ih2 ch hch'
        · rw [List.chain'_cons']
          refine ⟨?_, ih3⟩
          intro y hy
          cases hrest : r.dropWhile (fun x => !isPyWs x) with
          | nil => rw [hrest, chunksOf_nil] at hy; simp at hy
          | cons d t' =>
            have hfuel1 : 1 ≤ fuel := by
              have : (d :: t').length ≤ fuel := by rw [← hrest]; exact hrest_len
              simp at this; omega
            obtain ⟨ch2, tail2, heq, hall2⟩ := chunksOf_head_all fuel d t' hfuel1
            rw [hrest, heq] at hy
            simp only [List.head?_cons, Option.mem_some_iff] at hy
            subst hy
            have hdws : isPyWs d = true := by
              have := dropWhile_head_neg r d t' hrest
              simpa using this
            rw [hchunk_all, hall2, hdws]
            simp

/-- A record string in the serializer's effective alphabet: no hyphen (so
`wordsep_re` cannot split its words) and no whitespace other than plain
spaces.  Tokens are hyphen-free by construction, so every record built
from hyphen-free model names and title satisfies this. -/
def plainRecord (s : String) : Bool :=
  s.data.all (fun c => !(c = '-') && (!(isPyWs c) || c = ' '))

theorem plainRecord_no_hyph (s : String) (h : plainRecord s = true) :
    ∀ c ∈ s.data, c ≠ '-' := by
  intro c hc
  have := (List.all_eq_true.mp h) c hc
  simp only [Bool.and_eq_true, Bool.not_eq_true'] at this
  simpa using this.1

theorem plainRecord_ws (s : String) (h : plainRecord s = true) :
    ∀ c ∈ s.data, isPyWs c = true → c = ' ' := by
  intro c hc hws
  have := (List.all_eq_true.mp h) c hc
  simp only [Bool.and_eq_true, Bool.or_eq_true, Bool.not_eq_true'] at this
  rcases this.2 with h2 | h2
  · rw [hws] at h2; exact Bool.noConfusion h2
  · simpa using h2

theorem expandTabsAux_id : ∀ (l : List Char) (col : Nat), (∀ c ∈ l, c ≠ '\t') →
    expandTabsAux l col = l := by
  intro l
  induction l with
  | nil => intro col _; rfl
  | cons c cs ih =>
    intro col hl
    have hc : c ≠ '\t' := hl c (by simp)
    have hrest : ∀ x ∈ cs, x ≠ '\t' := fun x hx => hl x (List.mem_cons_of_mem _ hx)
    simp only [expandTabsAux, hc, if_false]
    by_cases hnl : (c = '\n' || c = '\r') = true
    · rw [if_pos hnl, ih 0 hrest]
    · rw [if_neg hnl, ih (col + 1) hrest]

/-- `_munge_whitespace` fixes a string whose whitespace is plain spaces. -/
theorem munge_id (s : String) (hp : ∀ c ∈ s.data, isPyWs c = true → c = ' ') :
    _munge_whitespace s = s := by
  have htab : ∀ c ∈ s.data, c ≠ '\t' := by
    intro c hc heq
    have hws : isPyWs c = true := by rw [heq]; rfl
    have := hp c hc hws
    rw [heq] at this
    exact absurd this (by decide)
  have hmap : s.data.map (fun c => if isPyWs c then ' ' else c) = s.data := by
    rw [List.map_congr_left (g := id) ?_, List.map_id]
    intro c hc
    by_cases hw : isPyWs c = true
    · simp only [hw, if_true, id]
      exact (hp c hc hw).symm
    · simp [hw]
  show String.mk ((expandTabsAux s.data 0).map _) = s
  rw [expandTabsAux_id s.data 0 htab, hmap]

/-- On a plain record the chunker yields the alternating run
decomposition. -/
theorem split_plain (s : String) (hp : plainRecord s = true) :
    _split s = (chunksOf s.data.length s.data).map List.asString := by
  unfold _split
  rw [splitChunksAux_plain s.data.length s.data (le_refl _)
    (plainRecord_no_hyph s hp) [] []]
  rfl

/-- Every line of `textwrap.wrap` output fits the width on a plain
record whose words fit the width (an over-wide word would be emitted on
its own over-long line). -/
theorem pyWrap_len (width : Nat) (s : String) (hp : plainRecord s = true)
    (h : ∀ w ∈ splitWords s, w.length ≤ width) :
    ∀ l ∈ pyWrap width s, l.length ≤ width := by
  unfold pyWrap
  rw [munge_id s (plainRecord_ws s hp), split_plain s hp]
  obtain ⟨hf, _, _⟩ := chunksOf_spec s.data.length s.data (le_refl _) (plainRecord_ws s hp)
  refine wrapChunksAux_len width _ _ [] ?_ (by simp)
  intro ch hch hall
  obtain ⟨chl, hchl, rfl⟩ := List.mem_map.mp hch
  have hallL : chl.all isPyWs = false := hall
  have hmemf : chl ∈ (chunksOf s.data.length s.data).filter (fun ch => !ch.all isPyWs) :=
    List.mem_filter.mpr ⟨hchl, by rw [hallL]; rfl⟩
  rw [hf] at hmemf
  have hword : chl.asString ∈ splitWords s := by
    simp only [splitWords]
    exact List.mem_map_of_mem List.asString hmemf
  exact h chl.asString hword

/-- On a plain record `textwrap.wrap` never splits a word: the words of
the output lines, in order, are exactly the words of the record. -/
theorem pyWrap_words (width : Nat) (s : String) (hp : plainRecord s = true) :
    (pyWrap width s).flatMap splitWords = splitWords s := by
  unfold pyWrap
  rw [munge_id s (plainRecord_ws s hp), split_plain s hp]
  obtain ⟨hf, hkinds, hch⟩ :=
    chunksOf_spec s.data.length s.data (le_refl _) (plainRecord_ws s hp)
  rw [wrapChunksAux_flatten width _ _ [] (by simp) ?hok ?hchain]
  case hok =>
    intro ch hmem
    obtain ⟨chl, hchl, rfl⟩ := List.mem_map.mp hmem
    obtain ⟨hne, hkind⟩ := hkinds chl hchl
    exact ⟨hne, hkind⟩
  case hchain =>
    rw [List.chain'_map]
    exact hch
  simp only [List.reverse_nil, List.flatMap_nil, List.nil_append]
  rw [List.filter_map]
  rw [show ((fun c => !strAllWs c) ∘ List.asString) = (fun ch => !ch.all isPyWs) from rfl]
  rw [hf]
  rfl

/-! ### The choice model data (read side of `AlogitInterface`) -/

/-- One `parameter * variable` term of a utility expression (the objects
`term.parameter` / `term.variable` read by `_utility_string`).  The field
`variable` of the source is `var` here (`variable` is reserved in Lean). -/
structure Term where
  parameter : String
  var : String
  deriving DecidableEq

/-- Modelled from the spec: a `UtilitySpecification` — an ordered list of
`UtilityTerm`s plus an optional intercept, one per alternative.  The class
parsing utility strings into this shape lives in `model.py`, which is not
under `src/`; `AlogitInterface._utility_string` reads exactly
`utility.intercept` and `utility.terms`. -/
structure Utility where
  intercept : Option String
  terms : List Term
  deriving DecidableEq

/-- Modelled from the spec: the `ChoiceModel`/`MultinomialLogit` data that
`AlogitInterface` reads (`model.py` is not under `src/`; fields and their
kinds follow spec §3 and the attribute accesses in `alogit.py`).  Python
dicts appear as insertion-ordered association lists; `data_columns` stands
for `model.data.columns`. -/
structure Model where
  title : String
  alternatives : List String
  choice_column : String
  availability : List (String × String)
  alternative_independent_variables : List String
  alternative_dependent_variables : List (String × List (String × String))
  intercepts : List (String × String)
  parameters : List String
  specification : List (String × Utility)
  data_columns : List String

/-- Modelled from the spec: `model.all_variables()` — the names of all
variables (alternative-independent ones, whose name doubles as a column
label, then alternative-dependent ones), the "variable" role of §4.1. -/
def Model.all_variables (m : Model) : List String :=
  m.alternative_independent_variables ++ m.alternative_dependent_variables.map Prod.fst

/-- Modelled from the spec: `model.alternative_dependent_variable_fields()`
— the column labels of the alternative-dependent variables, per variable
then per alternative (the "alternative-dependent-variable-column" role). -/
def Model.alternative_dependent_variable_fields (m : Model) : List String :=
  m.alternative_dependent_variables.flatMap (fun p => p.2.map Prod.snd)

/-- Modelled from the spec: `model.number_of_parameters(include_intercepts)`
— the number of parameters, plus the intercepts when requested (§4.3's K). -/
def Model.number_of_parameters (m : Model) (include_intercepts : Bool) : Nat :=
  m.parameters.length + if include_intercepts then m.intercepts.length else 0

/-- Modelled from the spec: `model.number_of_alternatives()`. -/
def Model.number_of_alternatives (m : Model) : Nat := m.alternatives.length

/-! ### Constants of `alogit.py` -/

def _ALO_COMMAND_TITLE : String := "$title "
def _ALO_COMMAND_ESTIMATE : String := "$estimate"
def _ALO_COMMAND_COEFFICIENTS : String := "$coeff"
def _ALO_COMMAND_ALTERNATIVES : String := "$nest root()"
def _ALO_COMMAND_ARRAY : String := "$array"

def _ALO_LABEL_CHOICE : String := "ch"
def _ALO_LABEL_CHOICE_COLUMN : String := "alt"
def _ALO_LABEL_AVAILABILITY : String := "av"
def _ALO_LABEL_VARIABLE : String := "v"
def _ALO_LABEL_CHOICE_DEPENDENT_VARIABLE : String := "cv"
def _ALO_LABEL_INTERCEPT : String := "c"
def _ALO_LABEL_PARAMETER : String := "prm"

def _MAX_CHARACTER_LENGTH : Nat := 10
def _MAX_LINE_LENGTH : Nat := 77

/-! ### The abbreviation registry (`_create_abbreviations`) -/

/-- One `enumerate(names, start=k)` loop of `_create_abbreviations`: pair
each long name with the role label followed by its 1-based position. -/
def registerFrom (pre : String) : Nat → List String → List (String × String)
  | _, [] => []
  | k, n :: ns => (n, pre ++ Nat.repr k) :: registerFrom pre (k + 1) ns

/-- `AlogitInterface._create_abbreviations`: the `(full, abbreviations)`
pair lists, zipped.  `self.abbreviation = dict(zip(full, abbreviations))`
and `self.elongation = dict(zip(abbreviations, full))` are Python-dict
views of this list (`pyDictGet?` implements their lookup). -/
def _create_abbreviations (m : Model) : List (String × String) :=
  registerFrom _ALO_LABEL_CHOICE 1 m.alternatives
    ++ [(m.choice_column, _ALO_LABEL_CHOICE_COLUMN)]
    ++ registerFrom _ALO_LABEL_AVAILABILITY 1 (m.availability.map Prod.snd)
    ++ registerFrom _ALO_LABEL_VARIABLE 1 m.all_variables
    ++ registerFrom _ALO_LABEL_CHOICE_DEPENDENT_VARIABLE 1
        m.alternative_dependent_variable_fields
    ++ registerFrom _ALO_LABEL_INTERCEPT 1 (m.intercepts.map Prod.snd)
    ++ registerFrom _ALO_LABEL_PARAMETER 1 m.parameters

/-- The registered long names (`full`, in registration order). -/
def longNames (m : Model) : List String := (_create_abbreviations m).map Prod.fst

/-- The generated tokens (`abbreviations`, in registration order). -/
def tokens (m : Model) : List String := (_create_abbreviations m).map Prod.snd

/-- `AlogitInterface.abbreviate`: the token of a registered name, the
string unchanged otherwise. -/
def abbreviate (m : Model) (s : String) : String :=
  (pyDictGet? (_create_abbreviations m) s).getD s

/-- `AlogitInterface.elongate`: `self.elongation[string]`, raising
`KeyError` for a string that is not a token of the registry. -/
def elongate (m : Model) (s : String) : Except PyErr String :=
  pyDictGetE ((_create_abbreviations m).map (fun p => (p.2, p.1))) s

/-! ### Token shape and uniqueness -/

theorem map_snd_registerFrom (pre : String) :
    ∀ (names : List String) (k : Nat),
      (registerFrom pre k names).map Prod.snd
        = (List.range names.length).map (fun i => pre ++ Nat.repr (k + i)) := by
  intro names
  induction names with
  | nil => intro k; rfl
  | cons n ns ih =>
    intro k
    simp only [registerFrom, List.map_cons, List.length_cons, List.range_succ_eq_map,
      List.map_map, ih (k + 1), Nat.add_zero]
    congr 1
    apply List.map_congr_left
    intro i _
    simp only [Function.comp_apply]
    congr 2
    omega

theorem map_fst_registerFrom (pre : String) :
    ∀ (names : List String) (k : Nat), (registerFrom pre k names).map Prod.fst = names := by
  intro names
  induction names with
  | nil => intro k; rfl
  | cons n ns ih => intro k; simp [registerFrom, ih (k + 1)]

/-- String append is left-cancellative. -/
theorem string_append_cancel {p a b : String} (h : p ++ a = p ++ b) : a = b := by
  apply String.ext
  have hd := congrArg String.data h
  rw [String.data_append, String.data_append] at hd
  exact List.append_cancel_left hd

/-- Tokens with the same role label and different indices differ. -/
theorem roleTok_injective (pre : String) {i j : Nat}
    (h : pre ++ Nat.repr i = pre ++ Nat.repr j) : i = j :=
  repr_injective (string_append_cancel h)

/-- Two prefix-plus-digits tokens with incomparable prefixes differ,
whatever follows the prefixes. -/
theorem tok_ne_of_not_pref (p q : String) (h1 : ¬ p.data <+: q.data)
    (h2 : ¬ q.data <+: p.data) (x y : String) : p ++ x ≠ q ++ y := by
  intro h
  have hd := congrArg String.data h
  rw [String.data_append, String.data_append] at hd
  have hp : p.data <+: p.data ++ x.data := List.prefix_append _ _
  have hq : q.data <+: p.data ++ x.data := by
    rw [hd]; exact List.prefix_append _ _
  rcases List.prefix_or_prefix_of_prefix hp hq with h' | h'
  · exact h1 h'
  · exact h2 h'

/-- A token whose role label strictly extends another's by a non-digit
character differs from every token of the shorter role. -/
theorem tok_ne_pref_digit (p q : String) (c : Char) (hq : q.data = p.data ++ [c])
    (hc : c.isDigit = false) (i j : Nat) : p ++ Nat.repr i ≠ q ++ Nat.repr j := by
  intro h
  have hd := congrArg String.data h
  rw [String.data_append, String.data_append, hq, List.append_assoc] at hd
  have h2 := List.append_cancel_left hd
  have hmem : c ∈ (Nat.repr i).data := by rw [h2]; simp
  have := repr_isDigit i c hmem
  rw [hc] at this
  cases this

/-- The token list a role of `n` names produces. -/
def roleTokens (pre : String) (n : Nat) : List String :=
  (List.range n).map (fun i => pre ++ Nat.repr (1 + i))

theorem tokens_eq (m : Model) :
    tokens m = roleTokens "ch" m.alternatives.length
      ++ (["alt"] ++ (roleTokens "av" m.availability.length
      ++ (roleTokens "v" m.all_variables.length
      ++ (roleTokens "cv" m.alternative_dependent_variable_fields.length
      ++ (roleTokens "c" m.intercepts.length
      ++ roleTokens "prm" m.parameters.length))))) := by
  simp only [tokens, _create_abbreviations, List.map_append, List.map_cons, List.map_nil,
    map_snd_registerFrom, List.length_map, roleTokens, _ALO_LABEL_CHOICE,
    _ALO_LABEL_CHOICE_COLUMN, _ALO_LABEL_AVAILABILITY, _ALO_LABEL_VARIABLE,
    _ALO_LABEL_CHOICE_DEPENDENT_VARIABLE, _ALO_LABEL_INTERCEPT, _ALO_LABEL_PARAMETER,
    List.append_assoc]

theorem roleTokens_nodup (pre : String) (n : Nat) : (roleTokens pre n).Nodup := by
  refine List.Nodup.map ?_ (List.nodup_range n)
  intro i j h
  have := roleTok_injective pre h
  omega

theorem disjoint_roleTokens (p q : String) (n m : Nat)
    (h : ∀ i j : Nat, p ++ Nat.repr i ≠ q ++ Nat.repr j) :
    (roleTokens p n).Disjoint (roleTokens q m) := by
  intro a ha hb
  simp only [roleTokens, List.mem_map, List.mem_range] at ha hb
  obtain ⟨i, _, rfl⟩ := ha
  obtain ⟨j, _, hj⟩ := hb
  exact h (1 + i) (1 + j) hj.symm

theorem tok_ne_alt (p : String) (h1 : ¬ p.data <+: ("alt" : String).data)
    (h2 : ¬ ("alt" : String).data <+: p.data) : ∀ i, p ++ Nat.repr i ≠ "alt" := by
  intro i
  have h := tok_ne_of_not_pref p "alt" h1 h2 (Nat.repr i) ""
  rwa [String.append_empty] at h

theorem disjoint_roleTokens_alt_right (p : String) (n : Nat)
    (h : ∀ i, p ++ Nat.repr i ≠ "alt") : (roleTokens p n).Disjoint ["alt"] := by
  intro a ha hb
  simp only [roleTokens, List.mem_map, List.mem_range] at ha
  obtain ⟨i, _, rfl⟩ := ha
  simp only [List.mem_singleton] at hb
  exact h (1 + i) hb

theorem disjoint_alt_roleTokens (p : String) (n : Nat)
    (h : ∀ i, p ++ Nat.repr i ≠ "alt") : (["alt"] : List String).Disjoint (roleTokens p n) := by
  intro a ha hb
  simp only [List.mem_singleton] at ha
  subst ha
  simp only [roleTokens, List.mem_map, List.mem_range] at hb
  obtain ⟨i, _, hi⟩ := hb
  exact h (1 + i) hi

/-- The generated tokens are pairwise distinct: indices separate tokens of
the same role, role labels separate tokens of different roles. -/
theorem tokens_nodup (m : Model) : (tokens m).Nodup := by
  rw [tokens_eq]
  simp only [List.nodup_append, List.disjoint_append_left, List.disjoint_append_right]
  and_intros
  all_goals first
    | exact roleTokens_nodup _ _
    | exact List.nodup_singleton _
    | trivial
    | exact disjoint_roleTokens _ _ _ _
        (fun i j => tok_ne_of_not_pref _ _ (by decide) (by decide) _ _)
    | exact disjoint_roleTokens _ _ _ _
        (fun i j => Ne.symm (tok_ne_pref_digit "c" "ch" 'h' (by decide) (by decide) _ _))
    | exact disjoint_roleTokens _ _ _ _
        (fun i j => Ne.symm (tok_ne_pref_digit "c" "cv" 'v' (by decide) (by decide) _ _))
    | exact disjoint_roleTokens_alt_right _ _ (tok_ne_alt _ (by decide) (by decide))
    | exact disjoint_alt_roleTokens _ _ (tok_ne_alt _ (by decide) (by decide))

/-! ### Registry lookup lemmas -/

/-- In a list whose second components are pairwise distinct, searching for
a member's second component finds exactly that member. -/
theorem find_snd_of_nodup :
    ∀ (l : List (String × String)), (l.map Prod.snd).Nodup →
      ∀ p ∈ l, l.find? (fun q => q.2 == p.2) = some p := by
  intro l
  induction l with
  | nil => intro _ p hp; cases hp
  | cons q rest ih =>
    intro hnd p hp
    simp only [List.map_cons, List.nodup_cons] at hnd
    rcases List.mem_cons.mp hp with rfl | hp'
    · simp [List.find?]
    · have hne : (q.2 == p.2) = false := by
        apply beq_false_of_ne
        intro h
        exact hnd.1 (h ▸ List.mem_map_of_mem Prod.snd hp')
      simp only [List.find?, hne]
      exact ih hnd.2 p hp'

/-- Every registered pair elongates its token back to its long name:
`elongation[token] = name`, because tokens are pairwise distinct. -/
theorem elongate_token (m : Model) (p : String × String)
    (hp : p ∈ _create_abbreviations m) : elongate m p.2 = .ok p.1 := by
  have hnd : ((_create_abbreviations m).reverse.map Prod.snd).Nodup := by
    rw [List.map_reverse]
    exact List.nodup_reverse.mpr (tokens_nodup m)
  have hmem : p ∈ (_create_abbreviations m).reverse := List.mem_reverse.mpr hp
  have hfind := find_snd_of_nodup _ hnd p hmem
  simp only [elongate, pyDictGetE, pyDictGet?]
  rw [← List.map_reverse, List.find?_map]
  have hpred : ((fun q : String × String => q.1 == p.2) ∘ fun q => (q.2, q.1))
      = fun q : String × String => q.2 == p.2 := rfl
  rw [hpred, hfind]
  rfl

/-- Looking up the key of a pair that is followed by no other binding for
the same key yields that pair's value (Python's last-write-wins). -/
theorem pyDictGet_last_occ (l1 l2 : List (String × String)) (s : String)
    (p : String × String) (hps : p.1 = s) (h2 : s ∉ l2.map Prod.fst) :
    pyDictGet? (l1 ++ p :: l2) s = some p.2 := by
  simp only [pyDictGet?, List.reverse_append, List.reverse_cons]
  rw [List.append_assoc, List.find?_append]
  have hnone : l2.reverse.find? (fun q => q.1 == s) = none := by
    rw [List.find?_eq_none]
    intro a ha hq
    rw [beq_iff_eq] at hq
    exact h2 (hq ▸ List.mem_map_of_mem Prod.fst (List.mem_reverse.mp ha))
  rw [hnone]
  simp [List.find?, hps]

/-- `abbreviate` of a registered name yields the token of its most recent
registration. -/
theorem abbreviate_mem (m : Model) (s : String) (h : s ∈ longNames m) :
    ∃ p ∈ _create_abbreviations m, p.1 = s ∧ abbreviate m s = p.2 := by
  have hex : ∃ a ∈ (_create_abbreviations m).reverse, (a.1 == s) = true := by
    simp only [longNames, List.mem_map] at h
    obtain ⟨p, hp, hps⟩ := h
    exact ⟨p, List.mem_reverse.mpr hp, beq_iff_eq.mpr hps⟩
  obtain ⟨p, hfind⟩ := Option.isSome_iff_exists.mp (List.find?_isSome.mpr hex)
  have hps := List.find?_some hfind
  simp only [beq_iff_eq] at hps
  have hpm : p ∈ _create_abbreviations m :=
    List.mem_reverse.mp (List.mem_of_find?_eq_some hfind)
  refine ⟨p, hpm, hps, ?_⟩
  simp [abbreviate, pyDictGet?, hfind]

/-- An unregistered string is returned unchanged by `abbreviate`. -/
theorem abbreviate_not_registered (m : Model) (s : String) (h : s ∉ longNames m) :
    abbreviate m s = s := by
  have hnone : (_create_abbreviations m).reverse.find? (fun q => q.1 == s) = none := by
    rw [List.find?_eq_none]
    intro a ha hq
    rw [beq_iff_eq] at hq
    exact h (hq ▸ List.mem_map_of_mem Prod.fst (List.mem_reverse.mp ha))
  simp [abbreviate, pyDictGet?, hnone]

/-- `elongate` of anything that is not a generated token raises `KeyError`. -/
theorem elongate_not_token (m : Model) (s : String) (h : s ∉ tokens m) :
    elongate m s = .error (.keyError s) := by
  have hnone : (((_create_abbreviations m).map (fun p => (p.2, p.1))).reverse.find?
      (fun q => q.1 == s)) = none := by
    rw [List.find?_eq_none]
    intro a ha hq
    rw [beq_iff_eq] at hq
    have ha' := List.mem_reverse.mp ha
    simp only [List.mem_map] at ha'
    obtain ⟨p, hp, rfl⟩ := ha'
    exact h (hq ▸ List.mem_map_of_mem Prod.snd hp)
  simp [elongate, pyDictGetE, pyDictGet?, hnone]

/-- Round trip for every registered long name (even one registered several
times, under one or several roles): abbreviation picks the latest token,
and that token elongates back to the name. -/
theorem elongate_abbreviate (m : Model) (s : String) (h : s ∈ longNames m) :
    elongate m (abbreviate m s) = .ok s := by
  obtain ⟨p, hp, hps, habb⟩ := abbreviate_mem m s h
  rw [habb, elongate_token m p hp, hps]

/-! ### The `.alo` serializer (`_create_alo_file` and helpers) -/

/-- Python `sep.join(list)`. -/
def pyJoin (sep : String) : List String → String
  | [] => ""
  | [w] => w
  | w :: ws => w ++ sep ++ pyJoin sep ws

/-- Generic Python-dict lookup (value of the most recent binding). -/
def pyGet? {α : Type} (l : List (String × α)) (k : String) : Option α :=
  (l.reverse.find? (fun p => p.1 == k)).map (·.2)

/-- `model.specification[choice]`, raising `KeyError` when absent. -/
def getSpecification (m : Model) (choice : String) : Except PyErr Utility :=
  match pyGet? m.specification choice with
  | some u => .ok u
  | none => .error (.keyError choice)

/-- An `AlogitInterface` instance: the model it was built against plus the
data-file path chosen in `__init__` (`self.data_file`). -/
structure AlogitInterface where
  model : Model
  data_file : String

/-- `self.column_labels`: the model's data columns, abbreviated. -/
def column_labels (i : AlogitInterface) : List String :=
  i.model.data_columns.map (abbreviate i.model)

/-- The record string `_alo_record` builds before wrapping:
`string = command` then `string += ' ' + self.abbreviate(arg)` per arg. -/
def _alo_record_string (m : Model) (command : String) (args : List String) : String :=
  args.foldl (fun s a => s ++ " " ++ abbreviate m a) command

/-- `AlogitInterface._alo_record`: build the record string and wrap it to
the line limit. -/
def _alo_record (m : Model) (command : String) (args : List String) : List String :=
  pyWrap _MAX_LINE_LENGTH (_alo_record_string m command args)

/-- `AlogitInterface._array`: `"array(argument)"`, both parts abbreviated. -/
def _array (m : Model) (array argument : String) : String :=
  abbreviate m array ++ "(" ++ abbreviate m argument ++ ")"

/-- `AlogitInterface._array_record`: `"array(argument) ="`. -/
def _array_record (m : Model) (array argument : String) : String :=
  _array m array argument ++ " ="

/-- The record string of `_specify_data_file` (with `' '.join` of the
column labels). -/
def _specify_data_file_string (i : AlogitInterface) : String :=
  "file (name=" ++ i.data_file ++ ") " ++ joinSp (column_labels i)

/-- The record string of `_define_alternatives`:
`choice=recode(alt tok, tok, ...)`. -/
def _define_alternatives_string (m : Model) : String :=
  "choice=recode(" ++ _ALO_LABEL_CHOICE_COLUMN ++ " "
    ++ pyJoin ", " (m.alternatives.map (abbreviate m)) ++ ")"

/-- `AlogitInterface._utility_string`: the optional abbreviated intercept,
then one `parameter*variable` term per utility term — with the
`(choice)` suffix when the variable is alternative-dependent — joined by
`" + "`.  Raises `KeyError` when the choice has no utility specification. -/
def _utility_string (m : Model) (choice : String) : Except PyErr String := do
  let utility ← getSpecification m choice
  let init : List String :=
    match utility.intercept with
    | some ic => [abbreviate m ic]
    | none => []
  let termStrings := utility.terms.map (fun term =>
    if (m.alternative_dependent_variables.map Prod.fst).contains term.var then
      abbreviate m term.parameter ++ "*" ++ abbreviate m term.var
        ++ "(" ++ abbreviate m choice ++ ")"
    else
      abbreviate m term.parameter ++ "*" ++ abbreviate m term.var)
  pure (pyJoin " + " (init ++ termStrings))

/-- The `Avail(choice) = availability` record strings, one per alternative
in order (`model.availability[choice]` may raise `KeyError`). -/
def availRecordStrings (m : Model) : List String → Except PyErr (List String)
  | [] => .ok []
  | choice :: rest => do
    let av ← pyDictGetE m.availability choice
    let recs ← availRecordStrings m rest
    pure (_alo_record_string m (_array_record m "Avail" choice) [av] :: recs)

/-- The `Util(choice) = expression` record strings, one per alternative. -/
def utilRecordStrings (m : Model) : List String → Except PyErr (List String)
  | [] => .ok []
  | choice :: rest => do
    let u ← _utility_string m choice
    let recs ← utilRecordStrings m rest
    pure (_alo_record_string m (_array_record m "Util" choice) [u] :: recs)

/-- Per alternative-dependent variable: the `$array var(alts)` record
string followed by one `var(choice) = column` record string per entry of
its column mapping. -/
def depVarRecordStrings (m : Model) : List String :=
  m.alternative_dependent_variables.flatMap (fun p =>
    _alo_record_string m _ALO_COMMAND_ARRAY [_array m p.1 "alts"]
      :: p.2.map (fun q => _alo_record_string m (_array_record m p.1 q.1) [q.2]))

/-- The record strings of `_create_alo_file`, in the order the source
emits them: title, `$estimate`, `$coeff` (parameters then intercepts),
`$nest root()` with the alternatives, the data-file record, the `Avail`
records, the `choice=recode` record, the `$array` blocks, and the `Util`
records. -/
def aloRecords (i : AlogitInterface) : Except PyErr (List String) := do
  let avail ← availRecordStrings i.model i.model.alternatives
  let utils ← utilRecordStrings i.model i.model.alternatives
  pure ([_alo_record_string i.model _ALO_COMMAND_TITLE [i.model.title],
      _alo_record_string i.model _ALO_COMMAND_ESTIMATE [],
      _alo_record_string i.model _ALO_COMMAND_COEFFICIENTS
        (i.model.parameters ++ i.model.intercepts.map Prod.snd),
      _alo_record_string i.model _ALO_COMMAND_ALTERNATIVES i.model.alternatives,
      _specify_data_file_string i]
    ++ avail
    ++ [_define_alternatives_string i.model]
    ++ depVarRecordStrings i.model
    ++ utils)

/-- `AlogitInterface._create_alo_file`: every record string wrapped to the
77-column limit, concatenated in record order.  (The source wraps each
record as it is appended; wrapping record by record and concatenating is
the same line list.) -/
def _create_alo_file (i : AlogitInterface) : Except PyErr (List String) :=
  (aloRecords i).map (fun rs => rs.flatMap (pyWrap _MAX_LINE_LENGTH))

/-! ### The spec's record grammar (§6), for comparison with the serializer -/

/-- The utility-expression grammar as the spec words it:
`[intercept-token] (+ parameter-token '*' variable-token
[ '(' alternative-token ')' ])*`, terms joined by `" + "`, the
parenthesized alternative suffix exactly when the variable is
alternative-dependent; names are turned into tokens by the registry. -/
def specUtilityExpr (m : Model) (choice : String) (u : Utility) : String :=
  pyJoin " + "
    ((match u.intercept with
      | some ic => [abbreviate m ic]
      | none => []) ++
      u.terms.map (fun term =>
        if (m.alternative_dependent_variables.map Prod.fst).contains term.var then
          abbreviate m term.parameter ++ "*" ++ abbreviate m term.var
            ++ "(" ++ abbreviate m choice ++ ")"
        else
          abbreviate m term.parameter ++ "*" ++ abbreviate m term.var))

/-- Per-alternative `Avail(<alt-token>) = <availability-token>` records of
the spec grammar. -/
def specAvailRecords (m : Model) : List String → Except PyErr (List String)
  | [] => .ok []
  | choice :: rest => do
    let av ← pyDictGetE m.availability choice
    let recs ← specAvailRecords m rest
    pure (("Avail(" ++ abbreviate m choice ++ ") = " ++ abbreviate m av) :: recs)

/-- Per-alternative `Util(<alt-token>) = <utility-expression>` records of
the spec grammar. -/
def specUtilRecords (m : Model) : List String → Except PyErr (List String)
  | [] => .ok []
  | choice :: rest => do
    let u ← getSpecification m choice
    let recs ← specUtilRecords m rest
    pure (("Util(" ++ abbreviate m choice ++ ") = " ++ specUtilityExpr m choice u) :: recs)

/-- Per alternative-dependent variable: `$array <var-token>(alts)` then
`<var-token>(<alt-token>) = <column-token>` per alternative, as in the
spec grammar. -/
def specDepVarRecords (m : Model) : List String :=
  m.alternative_dependent_variables.flatMap (fun p =>
    ("$array " ++ abbreviate m p.1 ++ "(alts)")
      :: p.2.map (fun q =>
        abbreviate m p.1 ++ "(" ++ abbreviate m q.1 ++ ") = " ++ abbreviate m q.2))

/-- The `choice=recode(<choice-col-token> <alt-token>, <alt-token>, ...)`
record of the spec grammar. -/
def specRecodeRecord (m : Model) : String :=
  "choice=recode(" ++ "alt" ++ " "
    ++ pyJoin ", " (m.alternatives.map (abbreviate m)) ++ ")"

/-- The `file (name=<path>) <col-token> ...` record of the spec grammar. -/
def specFileRecord (i : AlogitInterface) : String :=
  "file (name=" ++ i.data_file ++ ") " ++ joinSp (column_labels i)

/-- The record sequence exactly as the claim states it (spec §6, including
the `$nest root(...)` record with the alternative tokens inside the
parentheses, and the `choice=recode` record after the `$array` blocks). -/
def specRecordsClaim (i : AlogitInterface) : Except PyErr (List String) := do
  let avail ← specAvailRecords i.model i.model.alternatives
  let utils ← specUtilRecords i.model i.model.alternatives
  pure (["$title " ++ i.model.title,
      "$estimate",
      joinSp ("$coeff" ::
        (i.model.parameters ++ i.model.intercepts.map Prod.snd).map (abbreviate i.model)),
      "$nest root(" ++ joinSp (i.model.alternatives.map (abbreviate i.model)) ++ ")",
      specFileRecord i]
    ++ avail
    ++ specDepVarRecords i.model
    ++ [specRecodeRecord i.model]
    ++ utils)

/-- The record sequence wrapped to physical lines, claim order. -/
def specAloFileClaim (i : AlogitInterface) : Except PyErr (List String) :=
  (specRecordsClaim i).map (fun rs => rs.flatMap (pyWrap _MAX_LINE_LENGTH))

/-- The record sequence amended to what the code emits: the title record
carries a double space (`_ALO_COMMAND_TITLE` ends in a space and
`_alo_record` inserts another), the alternative tokens follow
`$nest root()` outside the parentheses, and the `choice=recode` record
precedes the `$array` blocks. -/
def specRecordsAmended (i : AlogitInterface) : Except PyErr (List String) := do
  let avail ← specAvailRecords i.model i.model.alternatives
  let utils ← specUtilRecords i.model i.model.alternatives
  pure (["$title  " ++ i.model.title,
      "$estimate",
      joinSp ("$coeff" ::
        (i.model.parameters ++ i.model.intercepts.map Prod.snd).map (abbreviate i.model)),
      joinSp ("$nest root()" :: i.model.alternatives.map (abbreviate i.model)),
      specFileRecord i]
    ++ avail
    ++ [specRecodeRecord i.model]
    ++ specDepVarRecords i.model
    ++ utils)

/-- The amended record sequence wrapped to physical lines. -/
def specAloFileAmended (i : AlogitInterface) : Except PyErr (List String) :=
  (specRecordsAmended i).map (fun rs => rs.flatMap (pyWrap _MAX_LINE_LENGTH))

/-! ### Relating the serializer's records to the spec grammar -/

theorem append_merge (a b c : String) (h : a ++ b = c) (x : String) :
    a ++ (b ++ x) = c ++ x := by rw [← String.append_assoc, h]

theorem foldl_joinSp :
    ∀ (toks : List String) (cmd : String),
      toks.foldl (fun s a => s ++ " " ++ a) cmd = joinSp (cmd :: toks) := by
  intro toks
  induction toks with
  | nil => intro cmd; rfl
  | cons t ts ih =>
    intro cmd
    rw [List.foldl_cons, ih (cmd ++ " " ++ t)]
    cases ts with
    | nil => rfl
    | cons t2 ts' =>
      show (cmd ++ " " ++ t) ++ " " ++ joinSp (t2 :: ts')
          = cmd ++ " " ++ (t ++ " " ++ joinSp (t2 :: ts'))
      simp [String.append_assoc]

/-- `_alo_record` builds the command followed by the abbreviated arguments,
single-space separated. -/
theorem alo_record_string_eq (m : Model) (cmd : String) (args : List String) :
    _alo_record_string m cmd args = joinSp (cmd :: args.map (abbreviate m)) := by
  rw [_alo_record_string, ← List.foldl_map (abbreviate m) (fun s a => s ++ " " ++ a),
    foldl_joinSp]

/-- Whether the serialized utility string of a choice is a fixed point of
`abbreviate` (it is, unless the model registered the whole expression as a
long name). -/
def utilStringFixed (m : Model) (choice : String) : Bool :=
  match getSpecification m choice with
  | .ok u => abbreviate m (specUtilityExpr m choice u) == specUtilityExpr m choice u
  | .error _ => true

/-- `_utility_string` is the spec's utility-expression grammar applied to
the looked-up utility specification. -/
theorem utility_string_eq (m : Model) (choice : String) :
    _utility_string m choice
      = (getSpecification m choice).map (specUtilityExpr m choice) := by
  cases h : getSpecification m choice with
  | error e => simp [_utility_string, h, Except.map, bind, Except.bind]
  | ok u => simp [_utility_string, h, Except.map, bind, Except.bind, pure, Except.pure,
      specUtilityExpr]

theorem availRecordStrings_eq (m : Model) (h : abbreviate m "Avail" = "Avail") :
    ∀ alts, availRecordStrings m alts = specAvailRecords m alts := by
  intro alts
  induction alts with
  | nil => rfl
  | cons choice rest ih =>
    simp only [availRecordStrings, specAvailRecords, ih]
    cases hav : pyDictGetE m.availability choice with
    | error e => rfl
    | ok av =>
      cases hrest : specAvailRecords m rest with
      | error e => rfl
      | ok recs =>
        show Except.ok (_alo_record_string m (_array_record m "Avail" choice) [av] :: recs)
            = Except.ok (("Avail(" ++ abbreviate m choice ++ ") = " ++ abbreviate m av) :: recs)
        refine congrArg Except.ok (congrArg (· :: recs) ?_)
        rw [alo_record_string_eq]
        show _array_record m "Avail" choice ++ " " ++ abbreviate m av
            = "Avail(" ++ abbreviate m choice ++ ") = " ++ abbreviate m av
        rw [_array_record, _array, h]
        simp only [String.append_assoc]
        rw [append_merge ")" " =" ") =" rfl, append_merge ") =" " " ") = " rfl,
          append_merge "Avail" "(" "Avail(" rfl]

theorem utilRecordStrings_eq (m : Model) (alts : List String)
    (hU : abbreviate m "Util" = "Util")
    (hu : ∀ c ∈ alts, utilStringFixed m c = true) :
    utilRecordStrings m alts = specUtilRecords m alts := by
  induction alts with
  | nil => rfl
  | cons choice rest ih =>
    have hchoice := hu choice (List.mem_cons_self choice rest)
    simp only [utilRecordStrings, specUtilRecords,
      ih (fun c hc => hu c (List.mem_cons_of_mem choice hc)), utility_string_eq]
    cases hspec : getSpecification m choice with
    | error e => rfl
    | ok u =>
      cases hrest : specUtilRecords m rest with
      | error e => rfl
      | ok recs =>
        unfold utilStringFixed at hchoice
        rw [hspec] at hchoice
        have hfix := beq_iff_eq.mp hchoice
        show Except.ok (_alo_record_string m (_array_record m "Util" choice)
              [specUtilityExpr m choice u] :: recs)
            = Except.ok (("Util(" ++ abbreviate m choice ++ ") = "
              ++ specUtilityExpr m choice u) :: recs)
        refine congrArg Except.ok (congrArg (· :: recs) ?_)
        rw [alo_record_string_eq]
        show _array_record m "Util" choice ++ " " ++ abbreviate m (specUtilityExpr m choice u)
            = "Util(" ++ abbreviate m choice ++ ") = " ++ specUtilityExpr m choice u
        rw [_array_record, _array, hU, hfix]
        simp only [String.append_assoc]
        rw [append_merge ")" " =" ") =" rfl, append_merge ") =" " " ") = " rfl,
          append_merge "Util" "(" "Util(" rfl]

theorem depVarRecords_aux (m : Model) (halts : abbreviate m "alts" = "alts") :
    ∀ (l : List (String × List (String × String))),
      (∀ v ∈ l.map Prod.fst, abbreviate m (_array m v "alts") = _array m v "alts") →
      l.flatMap (fun p => _alo_record_string m _ALO_COMMAND_ARRAY [_array m p.1 "alts"]
          :: p.2.map (fun q => _alo_record_string m (_array_record m p.1 q.1) [q.2]))
        = l.flatMap (fun p => ("$array " ++ abbreviate m p.1 ++ "(alts)")
          :: p.2.map (fun q =>
            abbreviate m p.1 ++ "(" ++ abbreviate m q.1 ++ ") = " ++ abbreviate m q.2)) := by
  intro l
  induction l with
  | nil => intro _; rfl
  | cons p ps ih =>
    intro harr
    simp only [List.flatMap_cons]
    rw [ih (fun v hv => harr v (by simp only [List.map_cons]; exact List.mem_cons_of_mem _ hv))]
    refine congrArg (· ++ _) ?_
    refine congrArg₂ (· :: ·) ?_ ?_
    · rw [alo_record_string_eq]
      show _ALO_COMMAND_ARRAY ++ " " ++ abbreviate m (_array m p.1 "alts")
          = "$array " ++ abbreviate m p.1 ++ "(alts)"
      rw [harr p.1 (by simp only [List.map_cons]; exact List.mem_cons_self _ _),
        _array, halts, _ALO_COMMAND_ARRAY]
      simp only [String.append_assoc]
      rw [append_merge "(" "alts" "(alts" rfl,
        show ("(alts" : String) ++ ")" = "(alts)" from rfl,
        append_merge "$array" " " "$array " rfl]
    · apply List.map_congr_left
      intro q _
      rw [alo_record_string_eq]
      show _array_record m p.1 q.1 ++ " " ++ abbreviate m q.2
          = abbreviate m p.1 ++ "(" ++ abbreviate m q.1 ++ ") = " ++ abbreviate m q.2
      rw [_array_record, _array]
      simp only [String.append_assoc]
      rw [append_merge ")" " =" ") =" rfl, append_merge ") =" " " ") = " rfl]

theorem depVarRecordStrings_eq (m : Model) (halts : abbreviate m "alts" = "alts")
    (harr : ∀ v ∈ m.alternative_dependent_variables.map Prod.fst,
      abbreviate m (_array m v "alts") = _array m v "alts") :
    depVarRecordStrings m = specDepVarRecords m := by
  unfold depVarRecordStrings specDepVarRecords
  exact depVarRecords_aux m halts m.alternative_dependent_variables harr

/-- The serializer's title record: `_ALO_COMMAND_TITLE` already ends in a
space and `_alo_record` inserts another before the (unabbreviated) title,
so the record carries a double space, which `textwrap.wrap` preserves. -/
theorem title_record_eq (m : Model) (htitle : abbreviate m m.title = m.title) :
    _alo_record_string m _ALO_COMMAND_TITLE [m.title] = "$title  " ++ m.title := by
  show _ALO_COMMAND_TITLE ++ " " ++ abbreviate m m.title = "$title  " ++ m.title
  rw [htitle]
  rw [show _ALO_COMMAND_TITLE ++ " " = "$title  " from rfl]

/-- The registered names do not collide with the serializer's fixed
vocabulary: the title, the array labels `Avail`/`Util`/`alts`, the
composite `var(alts)` strings and the assembled utility expressions are
not themselves registered long names (in any actual model they are not —
they would have to contain parentheses or spaces, or shadow the title). -/
def NoSpuriousAbbrev (i : AlogitInterface) : Prop :=
  abbreviate i.model i.model.title = i.model.title ∧
  abbreviate i.model "Avail" = "Avail" ∧
  abbreviate i.model "Util" = "Util" ∧
  abbreviate i.model "alts" = "alts" ∧
  (∀ v ∈ i.model.alternative_dependent_variables.map Prod.fst,
    abbreviate i.model (_array i.model v "alts") = _array i.model v "alts") ∧
  (∀ c ∈ i.model.alternatives, utilStringFixed i.model c = true)

/-- C1 (amended): under the no-collision side conditions, the serialized
solver input is exactly the spec's record sequence with the three
code-forced amendments — the title record carries a double space, the
alternative tokens follow `$nest root()` outside the parentheses, and the
`choice=recode(...)` record precedes the `$array` blocks. -/
theorem C1_serializer_amended_grammar (i : AlogitInterface) (h : NoSpuriousAbbrev i) :
    _create_alo_file i = specAloFileAmended i := by
  obtain ⟨htitle, hAvail, hUtil, halts, harr, hu⟩ := h
  unfold _create_alo_file specAloFileAmended aloRecords specRecordsAmended
  rw [availRecordStrings_eq i.model hAvail,
    utilRecordStrings_eq i.model i.model.alternatives hUtil hu,
    depVarRecordStrings_eq i.model halts harr,
    title_record_eq i.model htitle,
    show _alo_record_string i.model _ALO_COMMAND_ESTIMATE [] = "$estimate" from rfl,
    alo_record_string_eq i.model _ALO_COMMAND_COEFFICIENTS
      (i.model.parameters ++ i.model.intercepts.map Prod.snd),
    alo_record_string_eq i.model _ALO_COMMAND_ALTERNATIVES i.model.alternatives]
  simp only [_ALO_COMMAND_COEFFICIENTS, _ALO_COMMAND_ALTERNATIVES,
    _specify_data_file_string, specFileRecord, _define_alternatives_string,
    specRecodeRecord, _ALO_LABEL_CHOICE_COLUMN]

/-! ### The solver-log parser (`_parse_output_file`) -/

/-- Python's substring test `pat in line`. -/
def pyIn (pat line : String) : Bool := decide (pat.data <:+: line.data)

/-- The coefficient-table header the parser looks for. -/
def logHeader : String := "Coefficient   Estimate   Std. Error \x27t\x27 ratio"

/-- The result attributes `_parse_output_file` sets on `self`
(`_parameters`, `_errors`, `_t_values` as dicts keyed by the elongated
name; the scalars are `none` until their trigger line has been seen). -/
structure ParseState where
  parameters : List (String × String)
  errors : List (String × String)
  t_values : List (String × String)
  final_log_likelihood : Option String
  null_log_likelihood : Option String
  estimation_time : Option String
  deriving DecidableEq

/-- One coefficient row: split the line, elongate the leading token, and
record estimate, standard error and t-value under the long name — exactly
in the source's evaluation order, so the state updated before a failing
step survives the failure. -/
def readRow (m : Model) (line : String) (st : ParseState) : ParseState × Option PyErr :=
  let ws := splitWords line
  match pyIdx ws 0 with
  | .error e => (st, some e)
  | .ok tok =>
    match elongate m tok with
    | .error e => (st, some e)
    | .ok parameter =>
      match pyIdx ws 1 with
      | .error e => (st, some e)
      | .ok s1 =>
        match pyFloat s1 with
        | .error e => (st, some e)
        | .ok v1 =>
          let st := { st with parameters := pyDictSet st.parameters parameter v1 }
          match pyIdx ws 2 with
          | .error e => (st, some e)
          | .ok s2 =>
            match pyFloat s2 with
            | .error e => (st, some e)
            | .ok v2 =>
              let st := { st with errors := pyDictSet st.errors parameter v2 }
              match pyIdx ws 3 with
              | .error e => (st, some e)
              | .ok s3 =>
                match pyFloat s3 with
                | .error e => (st, some e)
                | .ok v3 =>
                  ({ st with t_values := pyDictSet st.t_values parameter v3 }, none)

/-- The `for result in range(K)` sub-loop after the header line: read one
line per row (`readline()` yields `""` at end of file, whose split is
empty, so a short log fails with `IndexError`), stopping at the first
failure.  Returns the state with the error, plus the unread lines. -/
def readRows (m : Model) : Nat → List String → ParseState →
    (ParseState × Option PyErr) × List String
  | 0, lines, st => ((st, none), lines)
  | k + 1, lines, st =>
    let line := (lines.head?).getD ""
    match readRow m line st with
    | (st', some e) => ((st', some e), lines.tail)
    | (st', none) => readRows m k lines.tail st'

theorem readRows_suffix_length (m : Model) :
    ∀ (k : Nat) (lines : List String) (st : ParseState),
      ((readRows m k lines st).2).length ≤ lines.length := by
  intro k
  induction k with
  | zero => intro lines st; exact Nat.le_refl _
  | succ k ih =>
    intro lines st
    simp only [readRows]
    cases h : readRow m ((lines.head?).getD "") st with
    | mk st' err =>
      cases err with
      | some e => simp [List.length_tail]
      | none =>
        calc ((readRows m k lines.tail st').2).length ≤ lines.tail.length := ih _ _
        _ ≤ lines.length := by simp [List.length_tail]

/-- The line scanner of `_parse_output_file`: the `elif` chain in source
order (final log-likelihood, initial log-likelihood, coefficient-table
header, estimation time), all other lines ignored.  Returns the state as
mutated so far together with the uncaught exception, if any.  The `fuel`
argument only drives the recursion (each step consumes at least one line,
so any `fuel ≥ lines.length` gives the loop's behaviour); it keeps the
definition structural so that concrete runs evaluate inside the kernel. -/
def parseLoop (m : Model) : Nat → List String → ParseState → ParseState × Option PyErr
  | _, [], st => (st, none)
  | 0, _ :: _, st => (st, none)
  | fuel + 1, line :: rest, st =>
    if pyIn "Final value of Log Likelihood" line then
      match pyIdxNeg (splitWords line) 1 with
      | .error e => (st, some e)
      | .ok tok =>
        match pyFloat tok with
        | .error e => (st, some e)
        | .ok v => parseLoop m fuel rest { st with final_log_likelihood := some v }
    else if pyIn "Initial Log Likelihood" line then
      match pyIdxNeg (splitWords line) 1 with
      | .error e => (st, some e)
      | .ok tok =>
        match pyFloat tok with
        | .error e => (st, some e)
        | .ok v => parseLoop m fuel rest { st with null_log_likelihood := some v }
    else if pyIn logHeader line then
      match readRows m (m.number_of_parameters true) rest st with
      | ((st', some e), _) => (st', some e)
      | ((st', none), rest') => parseLoop m fuel rest' st'
    else if pyIn "Estimation time" line then
      match pyIdxNeg (splitWords line) 2 with
      | .error e => (st, some e)
      | .ok tok =>
        match pyFloat tok with
        | .error e => (st, some e)
        | .ok v => parseLoop m fuel rest { st with estimation_time := some v }
    else parseLoop m fuel rest st

/-- `AlogitInterface._parse_output_file`: reset the three result dicts,
then scan the log lines.  The returned state holds everything assigned
before a failure; the optional error is the uncaught exception. -/
def _parse_output_file (m : Model) (lines : List String) (st : ParseState) :
    ParseState × Option PyErr :=
  parseLoop m lines.length lines { st with parameters := [], errors := [], t_values := [] }

/-! ### `estimate` and the guarded result accessors -/

/-- What `subprocess.run` returns: exit status and captured output. -/
structure ProcResult where
  returncode : Int
  stdout : String
  stderr : String
  deriving DecidableEq

/-- The mutable interface attributes `estimate` and the accessors touch:
the `_estimated` flag, the parse results, and the retained `process`
(`none` while the attribute has not been assigned). -/
structure IfaceState where
  estimated : Bool
  results : ParseState
  process : Option ProcResult
  deriving DecidableEq

/-- An interface as `__init__` leaves it: unestimated, no results, no
process attribute. -/
def freshInterface : IfaceState :=
  { estimated := false
    results := { parameters := [], errors := [], t_values := [],
                 final_log_likelihood := none, null_log_likelihood := none,
                 estimation_time := none }
    process := none }

/-- `AlogitInterface.estimate`, given the run's outcome and the log it
produced: on exit status `0` the `_estimated` flag is set, then the log is
parsed (an exception there propagates, leaving the flag set, the partial
results assigned and `self.process` unassigned); `self.process = process`
runs last.  On a nonzero exit status nothing but `self.process` changes
and no exception is raised. -/
def estimate (m : Model) (proc : ProcResult) (logLines : List String)
    (st : IfaceState) : IfaceState × Option PyErr :=
  if proc.returncode = 0 then
    match _parse_output_file m logLines st.results with
    | (ps, some e) => ({ st with estimated := true, results := ps }, some e)
    | (ps, none) => ({ st with estimated := true, results := ps, process := some proc }, none)
  else
    ({ st with process := some proc }, none)

/-- Modelled from the spec: the `requires_estimation` decorator (defined
in the interface package outside `src/`) — result accessors fail with a
StateError-class error until a successful `estimate()` has set the flag
(§4.4: "calling any of them before a successful `estimate()` fails"). -/
def requires_estimation {α : Type} (st : IfaceState) (body : Unit → Except PyErr α) :
    Except PyErr α :=
  if st.estimated then body () else .error .stateError

/-- `null_log_likelihood`, guarded; reading a never-assigned attribute is
an `AttributeError`. -/
def null_log_likelihood (st : IfaceState) : Except PyErr String :=
  requires_estimation st (fun _ =>
    match st.results.null_log_likelihood with
    | some v => .ok v
    | none => .error (.attributeError "_null_log_likelihood"))

/-- `final_log_likelihood`, guarded. -/
def final_log_likelihood (st : IfaceState) : Except PyErr String :=
  requires_estimation st (fun _ =>
    match st.results.final_log_likelihood with
    | some v => .ok v
    | none => .error (.attributeError "_final_log_likelihood"))

/-- `parameters`, guarded. -/
def parameters (st : IfaceState) : Except PyErr (List (String × String)) :=
  requires_estimation st (fun _ => .ok st.results.parameters)

/-- `standard_errors`, guarded. -/
def standard_errors (st : IfaceState) : Except PyErr (List (String × String)) :=
  requires_estimation st (fun _ => .ok st.results.errors)

/-- `t_values`, guarded. -/
def t_values (st : IfaceState) : Except PyErr (List (String × String)) :=
  requires_estimation st (fun _ => .ok st.results.t_values)

/-- `estimation_time`, guarded. -/
def estimation_time (st : IfaceState) : Except PyErr String :=
  requires_estimation st (fun _ =>
    match st.results.estimation_time with
    | some v => .ok v
    | none => .error (.attributeError "_estimation_time"))

/-- `display_results`, guarded like every other accessor: on a nonzero
stored exit status it prints the notice and the captured stderr, else the
captured stdout.  The printed text is returned. -/
def display_results (st : IfaceState) : Except PyErr String :=
  requires_estimation st (fun _ =>
    match st.process with
    | none => .error (.attributeError "process")
    | some p =>
      if p.returncode ≠ 0 then
        .ok ("ALOGIT returned non-zero return code\n" ++ p.stderr)
      else
        .ok p.stdout)

/-! ### `synthetic.py`: `synthetic_model` -/

/-- The keyword arguments `synthetic_model` passes to the
`MultinomialLogit` constructor (the constructor itself lives in
`model.py`, outside `src/`; the utility specification is handed over as
strings, exactly as built). -/
structure MNLArgs where
  title : String
  alternatives : List String
  choice_column : String
  availability : List (String × String)
  alternative_independent_variables : List String
  alternative_dependent_variables : List (String × List (String × String))
  intercepts : List (String × String)
  parameters : List String
  specification : List (String × String)
  deriving DecidableEq

/-- `synthetic_model(title, number_of_alternatives, number_of_variables)`:
alternative names `alternative1..`, availability columns `availability1..`
(one per alternative), alternative-dependent variables `variable1..` with
columns `<alternative>_variable<n>`, intercepts `c1..` for all but the
last alternative, parameters `parameter1..`, and utility strings
`[c<i> + ] parameter1*variable1 + ...`.  `alternatives[-1]` raises
`IndexError` when there are no alternatives. -/
def synthetic_model (title : String)
    (number_of_alternatives number_of_variables : Nat) : Except PyErr MNLArgs :=
  let alternatives := (List.range' 1 number_of_alternatives).map
    (fun n => "alternative" ++ Nat.repr n)
  let availability := alternatives.enum.map
    (fun p => (p.2, "availability" ++ Nat.repr (p.1 + 1)))
  let depVariables := (List.range' 1 number_of_variables).map (fun n =>
    ("variable" ++ Nat.repr n,
      alternatives.map (fun alt => (alt, alt ++ "_variable" ++ Nat.repr n))))
  let intercepts := alternatives.dropLast.enum.map
    (fun p => (p.2, "c" ++ Nat.repr (p.1 + 1)))
  let parameters := (List.range' 1 number_of_variables).map
    (fun n => "parameter" ++ Nat.repr n)
  let all_variables := depVariables.map Prod.fst
  let products := (parameters.zip all_variables).map (fun pq => pq.1 ++ "*" ++ pq.2)
  let linear_combination := pyJoin " + " products
  match alternatives.getLast? with
  | none => .error .indexError
  | some lastAlt =>
    .ok { title := title
          alternatives := alternatives
          choice_column := "choice"
          availability := availability
          alternative_independent_variables := []
          alternative_dependent_variables := depVariables
          intercepts := intercepts
          parameters := parameters
          specification := alternatives.dropLast.map (fun alternative =>
              (alternative,
                pyJoin " + " [(pyGet? intercepts alternative).getD "", linear_combination]))
            ++ [(lastAlt, linear_combination)] }

/-! ### `interface.py`: model-type validation -/

/-- The runtime classes relevant to interface validation, including one
strict subclass of `MultinomialLogit` standing for any user-defined
refinement of it. -/
inductive PyClass where
  | object
  | ChoiceModel
  | MultinomialLogit
  | MultinomialLogitSub
  deriving DecidableEq

/-- Python's `isinstance(x, t)` on this hierarchy (`object` ⊃
`ChoiceModel` ⊃ `MultinomialLogit` ⊃ `MultinomialLogitSub`), with the
subclass chain spelled out. -/
def isinstance (c t : PyClass) : Bool :=
  match c with
  | .object => t == .object
  | .ChoiceModel => t == .ChoiceModel || t == .object
  | .MultinomialLogit => t == .MultinomialLogit || t == .ChoiceModel || t == .object
  | .MultinomialLogitSub =>
    t == .MultinomialLogitSub || t == .MultinomialLogit
      || t == .ChoiceModel || t == .object

/-- `Interface._valid_models`. -/
def Interface_valid_models : List PyClass := [.ChoiceModel]

/-- `AlogitInterface._valid_models = [MultinomialLogit]`. -/
def AlogitInterface_valid_models : List PyClass := [.MultinomialLogit]

/-- `Interface._ensure_valid_model`: `type(model) not in cls._valid_models`
raises `TypeError` — an identity test on the runtime class, not
`isinstance`. -/
def _ensure_valid_model (valid : List PyClass) (t : PyClass) : Except PyErr Unit :=
  if t ∈ valid then .ok () else
    .error (.typeError "Argument \x22model\x22 must be one of the valid model classes")

/-- `Interface.__init__`: validate, then bind the model. -/
def Interface_init (valid : List PyClass) (t : PyClass) : Except PyErr PyClass := do
  _ensure_valid_model valid t
  pure t

/-- Decidable equality of `Except` results, for concrete evaluation. -/
instance {e a : Type} [DecidableEq e] [DecidableEq a] : DecidableEq (Except e a) := fun x y =>
  match x, y with
  | .ok u, .ok v =>
    if h : u = v then isTrue (by rw [h]) else
      isFalse (by intro hc; injection hc; contradiction)
  | .error u, .error v =>
    if h : u = v then isTrue (by rw [h]) else
      isFalse (by intro hc; injection hc; contradiction)
  | .ok _, .error _ => isFalse (by intro hc; cases hc)
  | .error _, .ok _ => isFalse (by intro hc; cases hc)

def mEx : Model :=
  { title := "Example model"
    alternatives := ["car", "bus"]
    choice_column := "choice"
    availability := [("car", "av_car"), ("bus", "av_bus")]
    alternative_independent_variables := []
    alternative_dependent_variables := [("time", [("car", "time_car"), ("bus", "time_bus")])]
    intercepts := [("car", "c_car")]
    parameters := ["p_time"]
    specification := [("car", ⟨some "c_car", [⟨"p_time", "time"⟩]⟩),
                      ("bus", ⟨none, [⟨"p_time", "time"⟩]⟩)]
    data_columns := ["time_car", "time_bus", "av_car", "av_bus", "choice"] }

def iEx : AlogitInterface := ⟨mEx, "Example.csv"⟩

def emptyPS : ParseState :=
  { parameters := [], errors := [], t_values := [],
    final_log_likelihood := none, null_log_likelihood := none, estimation_time := none }

/-- A process outcome with exit status 0. -/
def procOk : ProcResult := ⟨0, "estimation output", ""⟩

/-- A failed process outcome. -/
def procFail : ProcResult := ⟨1, "out", "boom"⟩

/-- A log whose first coefficient row starts with a token the registry
never generated. -/
def logBadToken : List String :=
  ["Initial Log Likelihood  -50.0", logHeader, "zzz 0.5 0.1 5.0"]

/-! ### Claim theorems -/

/-- C10: interface construction succeeds exactly when the runtime type of
the model is identical to a member of the supported-model list; a strict
subclass of `MultinomialLogit` satisfies `isinstance` but is rejected by
the ALOGIT interface with a `TypeError`, because validation compares
`type(model)` against the list. -/
theorem C10_type_identity_validation :
    (∀ (valid : List PyClass) (t : PyClass), Interface_init valid t = .ok t ↔ t ∈ valid) ∧
    isinstance .MultinomialLogitSub .MultinomialLogit = true ∧
    (∃ msg, Interface_init AlogitInterface_valid_models .MultinomialLogitSub
      = .error (.typeError msg)) := by
  refine ⟨?_, by decide, ?_⟩
  · intro valid t
    by_cases h : t ∈ valid
    · simp [Interface_init, _ensure_valid_model, h, bind, Except.bind, pure, Except.pure]
    · simp [Interface_init, _ensure_valid_model, h, bind, Except.bind, pure, Except.pure]
  · exact ⟨"Argument \x22model\x22 must be one of the valid model classes", by decide⟩

/-- C5: for a registered long name, `elongate (abbreviate name) = name`;
a string that is not a registered long name passes through `abbreviate`
unchanged; a string that is not a generated token makes `elongate` fail
with `KeyError`, which is a `LookupError`. -/
theorem C5_round_trip (m : Model) (s : String) :
    (s ∈ longNames m → elongate m (abbreviate m s) = .ok s) ∧
    (s ∉ longNames m → abbreviate m s = s) ∧
    (s ∉ tokens m → elongate m s = .error (.keyError s)
      ∧ (PyErr.keyError s).isLookupError = true) := by
  refine ⟨elongate_abbreviate m s, abbreviate_not_registered m s,
    fun h => ⟨elongate_not_token m s h, rfl⟩⟩

/-- C5 witness: the round trip on a registered name of the example model,
and the unregistered-string behaviour on a fresh string. -/
theorem C5_round_trip_witness :
    elongate mEx (abbreviate mEx "car") = .ok "car" ∧
    abbreviate mEx "unseen" = "unseen" ∧
    elongate mEx "unseen" = .error (.keyError "unseen") :=
  ⟨(C5_round_trip mEx "car").1 (by decide),
    (C5_round_trip mEx "unseen").2.1 (by decide),
    ((C5_round_trip mEx "unseen").2.2 (by decide)).1⟩

/-- Looking up a name whose last registration is a given pair yields that
pair's token. -/
theorem abbreviate_unique_occ (m : Model) (l1 l2 : List (String × String))
    (s t : String) (hsplit : _create_abbreviations m = l1 ++ (s, t) :: l2)
    (hnot : s ∉ l2.map Prod.fst) : abbreviate m s = t := by
  unfold abbreviate
  rw [hsplit, pyDictGet_last_occ l1 l2 s (s, t) rfl hnot]
  rfl

/-- C8: a long name registered under two roles — the reverse mapping is
unaffected (both tokens elongate to the name), while the forward mapping
keeps only the later registration. -/
theorem C8_last_write_wins (m : Model) (l1 l2 l3 : List (String × String))
    (s t1 t2 : String)
    (hsplit : _create_abbreviations m = l1 ++ (s, t1) :: (l2 ++ (s, t2) :: l3))
    (hnot : s ∉ l3.map Prod.fst) :
    elongate m t1 = .ok s ∧ elongate m t2 = .ok s ∧ abbreviate m s = t2 := by
  have h1 : (s, t1) ∈ _create_abbreviations m := by rw [hsplit]; simp
  have h2 : (s, t2) ∈ _create_abbreviations m := by rw [hsplit]; simp
  refine ⟨elongate_token m (s, t1) h1, elongate_token m (s, t2) h2, ?_⟩
  apply abbreviate_unique_occ m (l1 ++ (s, t1) :: l2) l3 s t2 ?_ hnot
  rw [hsplit]
  simp

/-- The example model with its availability column name also used as the
parameter name, so the same long name is registered under two roles. -/
def mEx8 : Model := { mEx with parameters := ["av_car"] }

/-- C8 witness: `av_car` is registered as availability column (token
`av1`) and as parameter (token `prm1`); both elongate back to `av_car`,
and `abbreviate` yields the later token `prm1`. -/
theorem C8_last_write_wins_witness :
    elongate mEx8 "av1" = .ok "av_car" ∧ elongate mEx8 "prm1" = .ok "av_car" ∧
    abbreviate mEx8 "av_car" = "prm1" :=
  C8_last_write_wins mEx8
    [("car", "ch1"), ("bus", "ch2"), ("choice", "alt")]
    [("av_bus", "av2"), ("time", "v1"), ("time_car", "cv1"), ("time_bus", "cv2"),
      ("c_car", "c1")]
    [] "av_car" "av1" "prm1" (by decide) (by decide)

/-- C2 counterexample: after a failed run on a never-estimated instance,
`estimate()` indeed raises nothing, but `display_results()` raises the
StateError instead of surfacing the retained stderr — it is itself
guarded by `requires_estimation`, so the output is not available through
it, contradicting the claim. -/
theorem C2_counterexample :
    (estimate mEx procFail [] freshInterface).2 = none ∧
    display_results (estimate mEx procFail [] freshInterface).1 = .error .stateError := by
  decide

/-- C2 (amended): on a nonzero exit status `estimate()` raises nothing and
retains the process (stdout/stderr included) in `self.process`; if the
instance was unestimated it stays so and every guarded accessor —
`display_results` included — fails with the StateError; only an instance
already estimated by an earlier successful run can surface the retained
stderr through `display_results()`. -/
theorem C2_solver_failure (m : Model) (proc : ProcResult) (logLines : List String)
    (st : IfaceState) (hrc : proc.returncode ≠ 0) :
    (estimate m proc logLines st).2 = none ∧
    (estimate m proc logLines st).1.process = some proc ∧
    (st.estimated = false →
      (estimate m proc logLines st).1.estimated = false ∧
      null_log_likelihood (estimate m proc logLines st).1 = .error .stateError ∧
      final_log_likelihood (estimate m proc logLines st).1 = .error .stateError ∧
      parameters (estimate m proc logLines st).1 = .error .stateError ∧
      standard_errors (estimate m proc logLines st).1 = .error .stateError ∧
      t_values (estimate m proc logLines st).1 = .error .stateError ∧
      estimation_time (estimate m proc logLines st).1 = .error .stateError ∧
      display_results (estimate m proc logLines st).1 = .error .stateError) ∧
    (st.estimated = true →
      display_results (estimate m proc logLines st).1
        = .ok ("ALOGIT returned non-zero return code\n" ++ proc.stderr)) := by
  have hest : estimate m proc logLines st = ({ st with process := some proc }, none) := by
    unfold estimate
    rw [if_neg hrc]
  rw [hest]
  refine ⟨rfl, rfl, ?_, ?_⟩
  · intro hst
    simp [null_log_likelihood, final_log_likelihood, parameters, standard_errors,
      t_values, estimation_time, display_results, requires_estimation, hst]
  · intro hst
    simp [display_results, requires_estimation, hst, hrc]

/-- C2 witness: the amended behaviour at a concrete failed run on a fresh
instance. -/
theorem C2_solver_failure_witness :
    (estimate mEx procFail [] freshInterface).2 = none ∧
    (estimate mEx procFail [] freshInterface).1.process = some procFail ∧
    null_log_likelihood (estimate mEx procFail [] freshInterface).1 = .error .stateError := by
  have h := C2_solver_failure mEx procFail [] freshInterface (by decide)
  exact ⟨h.1, h.2.1, (h.2.2.1 rfl).2.1⟩

/-- C3 counterexample: exit status 0 with a log whose coefficient row
holds an unknown token — the parse fails fatally (`KeyError`, a
`LookupError`), yet the instance is left in the estimated state with the
already-parsed null log-likelihood retained, contradicting the claim that
no partial result nor the estimated state remains. -/
theorem C3_counterexample :
    (estimate mEx procOk logBadToken freshInterface).2 = some (.keyError "zzz") ∧
    (PyErr.keyError "zzz").isLookupError = true ∧
    (estimate mEx procOk logBadToken freshInterface).1.estimated = true ∧
    (estimate mEx procOk logBadToken freshInterface).1.results.null_log_likelihood
      = some "-50.0" ∧
    (estimate mEx procOk logBadToken freshInterface).1.process = none := by
  decide

/-- C3 (amended): when the parse of the log fails (unknown token, short
log, malformed row), the error propagates out of `estimate()` — but the
`_estimated` flag has already been set, the fields parsed before the
failure stay on the instance, and `self.process` is left unassigned. -/
theorem C3_parse_failure (m : Model) (proc : ProcResult) (logLines : List String)
    (st : IfaceState) (ps : ParseState) (e : PyErr)
    (hrc : proc.returncode = 0)
    (hp : _parse_output_file m logLines st.results = (ps, some e)) :
    estimate m proc logLines st = ({ st with estimated := true, results := ps }, some e) := by
  unfold estimate
  rw [if_pos hrc, hp]

/-- The partial parse state the unknown-token log leaves behind. -/
def psBadToken : ParseState :=
  { parameters := []
    errors := []
    t_values := []
    final_log_likelihood := none
    null_log_likelihood := some "-50.0"
    estimation_time := none }

/-- C3 witness: the amended behaviour at the unknown-token log. -/
theorem C3_parse_failure_witness :
    estimate mEx procOk logBadToken freshInterface
      = ({ freshInterface with estimated := true, results := psBadToken },
          some (.keyError "zzz")) :=
  C3_parse_failure mEx procOk logBadToken freshInterface psBadToken (.keyError "zzz")
    (by decide) (by decide)

/-- C4 counterexample: a line containing both "Initial Log Likelihood" and
"Final value of Log Likelihood" is captured as the *final* log-likelihood
(the `elif` chain tests the final trigger first), so its trailing numeric
token is not captured as the null log-likelihood as the claim states. -/
theorem C4_counterexample :
    (_parse_output_file mEx
      ["Initial Log Likelihood and Final value of Log Likelihood -5.0"] emptyPS).1.null_log_likelihood
      = none ∧
    (_parse_output_file mEx
      ["Initial Log Likelihood and Final value of Log Likelihood -5.0"] emptyPS).1.final_log_likelihood
      = some "-5.0" := by
  decide

/-- C4 (amended): the scanner's per-line behaviour, with the priority
order of the source's `elif` chain made explicit — final log-likelihood
before initial log-likelihood before the coefficient header before the
estimation time; the header enters a sub-state that reads exactly K rows
(K = parameters including intercepts) of four whitespace-separated fields
each, keyed by the elongated token; every other line is ignored. -/
theorem C4_parser_triggers (m : Model) :
    (∀ (fuel : Nat) (line : String) (rest : List String) (st : ParseState) (tok v : String),
      pyIn "Final value of Log Likelihood" line = true →
      pyIdxNeg (splitWords line) 1 = .ok tok → pyFloat tok = .ok v →
      parseLoop m (fuel + 1) (line :: rest) st
        = parseLoop m fuel rest { st with final_log_likelihood := some v }) ∧
    (∀ (fuel : Nat) (line : String) (rest : List String) (st : ParseState) (tok v : String),
      pyIn "Final value of Log Likelihood" line = false →
      pyIn "Initial Log Likelihood" line = true →
      pyIdxNeg (splitWords line) 1 = .ok tok → pyFloat tok = .ok v →
      parseLoop m (fuel + 1) (line :: rest) st
        = parseLoop m fuel rest { st with null_log_likelihood := some v }) ∧
    (∀ (fuel : Nat) (line : String) (rest : List String) (st : ParseState),
      pyIn "Final value of Log Likelihood" line = false →
      pyIn "Initial Log Likelihood" line = false →
      pyIn logHeader line = true →
      parseLoop m (fuel + 1) (line :: rest) st
        = match readRows m (m.number_of_parameters true) rest st with
          | ((st', some e), _) => (st', some e)
          | ((st', none), rest') => parseLoop m fuel rest' st') ∧
    (∀ (k : Nat) (lines : List String) (st : ParseState),
      (readRows m k lines st).1.2 = none → (readRows m k lines st).2 = lines.drop k) ∧
    (∀ (line : String) (st : ParseState) (tok nm est errv tv : String) (extra : List String),
      splitWords line = tok :: est :: errv :: tv :: extra →
      elongate m tok = .ok nm →
      isPyFloat est = true → isPyFloat errv = true → isPyFloat tv = true →
      readRow m line st
        = ({ st with parameters := pyDictSet st.parameters nm est,
                     errors := pyDictSet st.errors nm errv,
                     t_values := pyDictSet st.t_values nm tv }, none)) ∧
    (∀ (fuel : Nat) (line : String) (rest : List String) (st : ParseState) (tok v : String),
      pyIn "Final value of Log Likelihood" line = false →
      pyIn "Initial Log Likelihood" line = false →
      pyIn logHeader line = false →
      pyIn "Estimation time" line = true →
      pyIdxNeg (splitWords line) 2 = .ok tok → pyFloat tok = .ok v →
      parseLoop m (fuel + 1) (line :: rest) st
        = parseLoop m fuel rest { st with estimation_time := some v }) ∧
    (∀ (fuel : Nat) (line : String) (rest : List String) (st : ParseState),
      pyIn "Final value of Log Likelihood" line = false →
      pyIn "Initial Log Likelihood" line = false →
      pyIn logHeader line = false →
      pyIn "Estimation time" line = false →
      parseLoop m (fuel + 1) (line :: rest) st = parseLoop m fuel rest st) := by
  refine ⟨?_, ?_, ?_, ?_, ?_, ?_, ?_⟩
  · intro fuel line rest st tok v h1 h2 h3
    simp [parseLoop, h1, h2, h3]
  · intro fuel line rest st tok v h1 h2 h3 h4
    simp [parseLoop, h1, h2, h3, h4]
  · intro fuel line rest st h1 h2 h3
    simp [parseLoop, h1, h2, h3]
  · intro k
    induction k with
    | zero => intro lines st _; rfl
    | succ k ih =>
      intro lines st h
      simp only [readRows] at h ⊢
      cases hrow : readRow m ((lines.head?).getD "") st with
      | mk st' err =>
        cases err with
        | some e =>
          rw [hrow] at h
          have h' : (some e : Option PyErr) = none := h
          exact Option.noConfusion h'
        | none =>
          rw [hrow] at h
          have h' : (readRows m k lines.tail st').1.2 = none := h
          show (readRows m k lines.tail st').2 = List.drop (k + 1) lines
          rw [ih lines.tail st' h']
          cases lines with
          | nil => simp
          | cons a as => rfl
  · intro line st tok nm est errv tv extra hsplit helong h1 h2 h3
    simp [readRow, hsplit, pyIdx, helong, pyFloat, h1, h2, h3]
  · intro fuel line rest st tok v h1 h2 h3 h4 h5 h6
    simp [parseLoop, h1, h2, h3, h4, h5, h6]
  · intro fuel line rest st h1 h2 h3 h4
    simp [parseLoop, h1, h2, h3, h4]

/-- C4 witness: each scanner clause at a concrete log line of the example
model (K = 2 there: one parameter plus one intercept). -/
theorem C4_parser_triggers_witness :
    parseLoop mEx 1 ["Final value of Log Likelihood -40.0"] emptyPS
      = parseLoop mEx 0 [] { emptyPS with final_log_likelihood := some "-40.0" } ∧
    parseLoop mEx 1 ["Initial Log Likelihood -50.0"] emptyPS
      = parseLoop mEx 0 [] { emptyPS with null_log_likelihood := some "-50.0" } ∧
    parseLoop mEx 1 [logHeader] emptyPS
      = (match readRows mEx (mEx.number_of_parameters true) [] emptyPS with
        | ((st', some e), _) => (st', some e)
        | ((st', none), rest') => parseLoop mEx 0 rest' st') ∧
    (readRows mEx 2 ["prm1 0.5 0.1 5.0", "c1 1.2 0.3 4.0", "tail line"] emptyPS).2
      = ["tail line"] ∧
    readRow mEx "prm1 0.5 0.1 5.0" emptyPS
      = ({ emptyPS with parameters := pyDictSet emptyPS.parameters "p_time" "0.5",
                        errors := pyDictSet emptyPS.errors "p_time" "0.1",
                        t_values := pyDictSet emptyPS.t_values "p_time" "5.0" }, none) ∧
    parseLoop mEx 1 ["Estimation time  3.2 seconds"] emptyPS
      = parseLoop mEx 0 [] { emptyPS with estimation_time := some "3.2" } ∧
    parseLoop mEx 1 ["nothing here"] emptyPS = parseLoop mEx 0 [] emptyPS := by
  have h := C4_parser_triggers mEx
  exact ⟨h.1 0 _ [] emptyPS "-40.0" "-40.0" (by decide) (by decide) (by decide),
    h.2.1 0 _ [] emptyPS "-50.0" "-50.0" (by decide) (by decide) (by decide) (by decide),
    h.2.2.1 0 logHeader [] emptyPS (by decide) (by decide) (by decide),
    (h.2.2.2.1 2 _ emptyPS (by decide)).trans (by decide),
    h.2.2.2.2.1 _ emptyPS "prm1" "p_time" "0.5" "0.1" "5.0" []
      (by decide) (by decide) (by decide) (by decide) (by decide),
    h.2.2.2.2.2.1 0 _ [] emptyPS "3.2" "3.2"
      (by decide) (by decide) (by decide) (by decide) (by decide) (by decide),
    h.2.2.2.2.2.2 0 _ [] emptyPS (by decide) (by decide) (by decide) (by decide)⟩

theorem roleTokens_len (pre : String) (hp : pre.length ≤ 3) (n : Nat)
    (hn : n ≤ 9999999) : ∀ t ∈ roleTokens pre n, t.length ≤ _MAX_CHARACTER_LENGTH := by
  intro t ht
  simp only [roleTokens, List.mem_map, List.mem_range] at ht
  obtain ⟨j, hj, rfl⟩ := ht
  rw [String.length_append]
  have hpow : (10 : Nat) ^ 7 = 10000000 := by norm_num
  have h7 : (Nat.repr (1 + j)).length ≤ 7 :=
    Nat.repr_length (1 + j) 7 (by omega) (by omega)
  unfold _MAX_CHARACTER_LENGTH
  omega

/-- The example model with a 78-character single-word title. -/
def mExLong : Model :=
  { mEx with title :=
      "AAAAAAAAAABBBBBBBBBBCCCCCCCCCCDDDDDDDDDDEEEEEEEEEEFFFFFFFFFFGGGGGGGGGGHHHHHHHH" }

def iExLong : AlogitInterface := ⟨mExLong, "Example.csv"⟩

/-- No role token contains a hyphen: the role labels are alphabetic and
the appended index is decimal digits. -/
theorem roleTokens_no_hyph (pre : String) (hp : '-' ∉ pre.data) (n : Nat) :
    ∀ t ∈ roleTokens pre n, '-' ∉ t.data := by
  intro t ht
  simp only [roleTokens, List.mem_map, List.mem_range] at ht
  obtain ⟨j, _, rfl⟩ := ht
  rw [String.data_append]
  intro hmem
  rcases List.mem_append.mp hmem with h | h
  · exact hp h
  · have := repr_isDigit (1 + j) '-' h
    exact absurd this (by decide)

/-- C6 counterexample: a model whose title is a single 78-character word
serializes to a line of 78 characters (`break_long_words=False` emits an
over-long word whole on its own line), so not every physical line is at
most 77 characters.  Separately, `textwrap`'s hyphen chunking splits the
hyphenated word `aaa-bbb` across a line break, so the no-split guarantee
cannot reach beyond hyphen-free words. -/
theorem C6_counterexample :
    (¬ ∀ line ∈ (_create_alo_file iExLong).toOption.getD [],
        line.length ≤ _MAX_LINE_LENGTH) ∧
    pyWrap _MAX_LINE_LENGTH
        ("xxxxxxxxxxxxxxxxxxxxxxxxxxxxxxxxxxxxxxxxxxxxxxxxxxxxxxxxxxxxxxxxxxxxxx aaa-bbb")
      = ["xxxxxxxxxxxxxxxxxxxxxxxxxxxxxxxxxxxxxxxxxxxxxxxxxxxxxxxxxxxxxxxxxxxxxx aaa-",
         "bbb"] := by
  constructor
  · decide
  · decide

/-- C6 (amended): every generated token is at most 10 characters provided
each role registers at most 9 999 999 names (the longest role label,
`prm`, plus a seven-digit index fills the limit); no token contains a
hyphen; and on every record free of hyphens and of whitespace other than
plain spaces, wrapping keeps every physical line within 77 characters
provided every whitespace-delimited word of the record — title words, the
data-file term, tokens — is itself at most 77 characters, and never
splits a word (hence never a token) across a line break.  The two
provisos are forced by the code: `break_long_words=False` emits an
over-long word on an over-long line, and `textwrap`'s hyphen chunking can
split hyphenated words (which only a title, data-file path or
unregistered column label could contribute — tokens are hyphen-free). -/
theorem C6_line_and_token_limits (i : AlogitInterface)
    (hc : i.model.alternatives.length ≤ 9999999 ∧
      i.model.availability.length ≤ 9999999 ∧
      i.model.all_variables.length ≤ 9999999 ∧
      i.model.alternative_dependent_variable_fields.length ≤ 9999999 ∧
      i.model.intercepts.length ≤ 9999999 ∧
      i.model.parameters.length ≤ 9999999)
    (hpl : ∀ r ∈ (aloRecords i).toOption.getD [], plainRecord r = true)
    (hw : ∀ r ∈ (aloRecords i).toOption.getD [], ∀ w ∈ splitWords r,
      w.length ≤ _MAX_LINE_LENGTH) :
    (∀ t ∈ tokens i.model, t.length ≤ _MAX_CHARACTER_LENGTH) ∧
    (∀ t ∈ tokens i.model, '-' ∉ t.data) ∧
    (∀ lines, _create_alo_file i = .ok lines →
      ∀ line ∈ lines, line.length ≤ _MAX_LINE_LENGTH) ∧
    (∀ rs, aloRecords i = .ok rs → ∀ r ∈ rs,
      (pyWrap _MAX_LINE_LENGTH r).flatMap splitWords = splitWords r) := by
  obtain ⟨h1, h2, h3, h4, h5, h6⟩ := hc
  refine ⟨?_, ?_, ?_, ?_⟩
  · intro t ht
    rw [tokens_eq] at ht
    simp only [List.mem_append, List.mem_singleton] at ht
    rcases ht with h | h | h | h | h | h | h
    · exact roleTokens_len _ (by decide) _ h1 t h
    · subst h; decide
    · exact roleTokens_len _ (by decide) _ h2 t h
    · exact roleTokens_len _ (by decide) _ h3 t h
    · exact roleTokens_len _ (by decide) _ h4 t h
    · exact roleTokens_len _ (by decide) _ h5 t h
    · exact roleTokens_len _ (by decide) _ h6 t h
  · intro t ht
    rw [tokens_eq] at ht
    simp only [List.mem_append, List.mem_singleton] at ht
    rcases ht with h | h | h | h | h | h | h
    · exact roleTokens_no_hyph _ (by decide) _ t h
    · subst h; decide
    · exact roleTokens_no_hyph _ (by decide) _ t h
    · exact roleTokens_no_hyph _ (by decide) _ t h
    · exact roleTokens_no_hyph _ (by decide) _ t h
    · exact roleTokens_no_hyph _ (by decide) _ t h
    · exact roleTokens_no_hyph _ (by decide) _ t h
  · intro lines hlines line hline
    unfold _create_alo_file at hlines
    cases hrs : aloRecords i with
    | error e =>
      rw [hrs] at hlines
      exact Except.noConfusion hlines
    | ok rs =>
      rw [hrs] at hlines
      have hl : lines = rs.flatMap (pyWrap _MAX_LINE_LENGTH) :=
        (Except.ok.inj hlines).symm
      subst hl
      rw [hrs] at hw hpl
      obtain ⟨r, hr, hlr⟩ := List.mem_flatMap.mp hline
      exact pyWrap_len _ _ (hpl r hr) (hw r hr) line hlr
  · intro rs hrs r hr
    rw [hrs] at hpl
    exact pyWrap_words _MAX_LINE_LENGTH r (hpl r hr)

/-- C6 witness: the bounds and the no-split equation at the example
interface, whose records are hyphen-free with plain spaces. -/
theorem C6_line_and_token_limits_witness :
    (∀ t ∈ tokens iEx.model, t.length ≤ _MAX_CHARACTER_LENGTH) ∧
    (∀ t ∈ tokens iEx.model, '-' ∉ t.data) ∧
    (∀ lines, _create_alo_file iEx = .ok lines →
      ∀ line ∈ lines, line.length ≤ _MAX_LINE_LENGTH) ∧
    (∀ rs, aloRecords iEx = .ok rs → ∀ r ∈ rs,
      (pyWrap _MAX_LINE_LENGTH r).flatMap splitWords = splitWords r) :=
  C6_line_and_token_limits iEx
    ⟨by decide, by decide, by decide, by decide, by decide, by decide⟩
    (by decide) (by decide)

theorem registerFrom_split (pre : String) :
    ∀ (ns : List String) (k i : Nat) (s : String), ns.get? i = some s →
      registerFrom pre k ns
        = registerFrom pre k (ns.take i)
          ++ (s, pre ++ Nat.repr (k + i))
            :: registerFrom pre (k + i + 1) (ns.drop (i + 1)) := by
  intro ns
  induction ns with
  | nil => intro k i s h; simp at h
  | cons n ns ih =>
    intro k i s h
    cases i with
    | zero =>
      simp only [List.get?] at h
      injection h with h
      subst h
      simp [registerFrom]
    | succ i =>
      simp only [List.get?] at h
      have := ih (k + 1) i s h
      simp only [registerFrom, List.take, List.drop, List.cons_append]
      rw [this]
      have e1 : k + 1 + i = k + (i + 1) := by omega
      rw [e1]

/-- A name whose total registration count is one abbreviates to the token
of its (unique) registration. -/
theorem abbreviate_of_count_one (m : Model) (l1 l2 : List (String × String))
    (s t : String) (hreg : _create_abbreviations m = l1 ++ (s, t) :: l2)
    (hcount : (longNames m).count s = 1) : abbreviate m s = t := by
  have hnot : s ∉ l2.map Prod.fst := by
    intro hmem
    have hge : 2 ≤ (longNames m).count s := by
      rw [longNames, hreg, List.map_append, List.map_cons, List.count_append,
        List.count_cons_self]
      have hpos : 0 < (l2.map Prod.fst).count s := List.count_pos_iff.mpr hmem
      omega
    omega
  exact abbreviate_unique_occ m l1 l2 s t hreg hnot

/-- A name registered once overall, sitting at position `i` of a role's
name list, abbreviates to the role label followed by `i + 1`. -/
theorem abbreviate_in_role (m : Model) (pre : String) (ns : List String)
    (A B : List (String × String))
    (hreg : _create_abbreviations m = A ++ (registerFrom pre 1 ns ++ B))
    (i : Nat) (s : String) (hget : ns.get? i = some s)
    (hcount : (longNames m).count s = 1) :
    abbreviate m s = pre ++ Nat.repr (1 + i) := by
  have hsplit := registerFrom_split pre ns 1 i s hget
  have hreg' : _create_abbreviations m
      = (A ++ registerFrom pre 1 (ns.take i))
        ++ (s, pre ++ Nat.repr (1 + i))
          :: (registerFrom pre (1 + i + 1) (ns.drop (i + 1)) ++ B) := by
    rw [hreg, hsplit]
    simp [List.append_assoc]
  exact abbreviate_of_count_one m _ _ s _ hreg' hcount

/-- C7 counterexample: the choice-column role does not follow the
"role prefix + 1-based index" formula — its sole registration gets the
fixed token `alt`, not `alt1`. -/
theorem C7_counterexample :
    abbreviate mEx mEx.choice_column = "alt" ∧
    ("alt" : String) ≠ "alt" ++ Nat.repr 1 := by
  decide

/-- C7 (amended): for every long name registered exactly once, its token
is the role label followed by its 1-based position within the role's
registration order — except the choice column, whose sole registration
gets the fixed token `alt` with no index — and two different registered
long names never share a token. -/
theorem C7_token_formula (m : Model) :
    (∀ (i : Nat) (s : String), m.alternatives.get? i = some s →
      (longNames m).count s = 1 → abbreviate m s = "ch" ++ Nat.repr (1 + i)) ∧
    ((longNames m).count m.choice_column = 1 →
      abbreviate m m.choice_column = "alt") ∧
    (∀ (i : Nat) (s : String), (m.availability.map Prod.snd).get? i = some s →
      (longNames m).count s = 1 → abbreviate m s = "av" ++ Nat.repr (1 + i)) ∧
    (∀ (i : Nat) (s : String), m.all_variables.get? i = some s →
      (longNames m).count s = 1 → abbreviate m s = "v" ++ Nat.repr (1 + i)) ∧
    (∀ (i : Nat) (s : String), m.alternative_dependent_variable_fields.get? i = some s →
      (longNames m).count s = 1 → abbreviate m s = "cv" ++ Nat.repr (1 + i)) ∧
    (∀ (i : Nat) (s : String), (m.intercepts.map Prod.snd).get? i = some s →
      (longNames m).count s = 1 → abbreviate m s = "c" ++ Nat.repr (1 + i)) ∧
    (∀ (i : Nat) (s : String), m.parameters.get? i = some s →
      (longNames m).count s = 1 → abbreviate m s = "prm" ++ Nat.repr (1 + i)) ∧
    (∀ a b, a ∈ longNames m → b ∈ longNames m → a ≠ b →
      abbreviate m a ≠ abbreviate m b) := by
  refine ⟨?_, ?_, ?_, ?_, ?_, ?_, ?_, ?_⟩
  · intro i s hget hcount
    refine abbreviate_in_role m "ch" m.alternatives []
      ([(m.choice_column, "alt")]
        ++ (registerFrom "av" 1 (m.availability.map Prod.snd)
        ++ (registerFrom "v" 1 m.all_variables
        ++ (registerFrom "cv" 1 m.alternative_dependent_variable_fields
        ++ (registerFrom "c" 1 (m.intercepts.map Prod.snd)
        ++ registerFrom "prm" 1 m.parameters))))) ?_ i s hget hcount
    simp only [_create_abbreviations, _ALO_LABEL_CHOICE, _ALO_LABEL_CHOICE_COLUMN,
      _ALO_LABEL_AVAILABILITY, _ALO_LABEL_VARIABLE, _ALO_LABEL_CHOICE_DEPENDENT_VARIABLE,
      _ALO_LABEL_INTERCEPT, _ALO_LABEL_PARAMETER, List.append_assoc, List.cons_append,
      List.nil_append, List.append_nil]
  · intro hcount
    refine abbreviate_of_count_one m
      (registerFrom "ch" 1 m.alternatives)
      (registerFrom "av" 1 (m.availability.map Prod.snd)
        ++ (registerFrom "v" 1 m.all_variables
        ++ (registerFrom "cv" 1 m.alternative_dependent_variable_fields
        ++ (registerFrom "c" 1 (m.intercepts.map Prod.snd)
        ++ registerFrom "prm" 1 m.parameters))))
      m.choice_column "alt" ?_ hcount
    simp only [_create_abbreviations, _ALO_LABEL_CHOICE, _ALO_LABEL_CHOICE_COLUMN,
      _ALO_LABEL_AVAILABILITY, _ALO_LABEL_VARIABLE, _ALO_LABEL_CHOICE_DEPENDENT_VARIABLE,
      _ALO_LABEL_INTERCEPT, _ALO_LABEL_PARAMETER, List.append_assoc, List.cons_append,
      List.nil_append, List.append_nil]
  · intro i s hget hcount
    refine abbreviate_in_role m "av" (m.availability.map Prod.snd)
      (registerFrom "ch" 1 m.alternatives ++ [(m.choice_column, "alt")])
      (registerFrom "v" 1 m.all_variables
        ++ (registerFrom "cv" 1 m.alternative_dependent_variable_fields
        ++ (registerFrom "c" 1 (m.intercepts.map Prod.snd)
        ++ registerFrom "prm" 1 m.parameters))) ?_ i s hget hcount
    simp only [_create_abbreviations, _ALO_LABEL_CHOICE, _ALO_LABEL_CHOICE_COLUMN,
      _ALO_LABEL_AVAILABILITY, _ALO_LABEL_VARIABLE, _ALO_LABEL_CHOICE_DEPENDENT_VARIABLE,
      _ALO_LABEL_INTERCEPT, _ALO_LABEL_PARAMETER, List.append_assoc, List.cons_append,
      List.nil_append, List.append_nil]
  · intro i s hget hcount
    refine abbreviate_in_role m "v" m.all_variables
      (registerFrom "ch" 1 m.alternatives ++ ([(m.choice_column, "alt")]
        ++ registerFrom "av" 1 (m.availability.map Prod.snd)))
      (registerFrom "cv" 1 m.alternative_dependent_variable_fields
        ++ (registerFrom "c" 1 (m.intercepts.map Prod.snd)
        ++ registerFrom "prm" 1 m.parameters)) ?_ i s hget hcount
    simp only [_create_abbreviations, _ALO_LABEL_CHOICE, _ALO_LABEL_CHOICE_COLUMN,
      _ALO_LABEL_AVAILABILITY, _ALO_LABEL_VARIABLE, _ALO_LABEL_CHOICE_DEPENDENT_VARIABLE,
      _ALO_LABEL_INTERCEPT, _ALO_LABEL_PARAMETER, List.append_assoc, List.cons_append,
      List.nil_append, List.append_nil]
  · intro i s hget hcount
    refine abbreviate_in_role m "cv" m.alternative_dependent_variable_fields
      (registerFrom "ch" 1 m.alternatives ++ ([(m.choice_column, "alt")]
        ++ (registerFrom "av" 1 (m.availability.map Prod.snd)
        ++ registerFrom "v" 1 m.all_variables)))
      (registerFrom "c" 1 (m.intercepts.map Prod.snd)
        ++ registerFrom "prm" 1 m.parameters) ?_ i s hget hcount
    simp only [_create_abbreviations, _ALO_LABEL_CHOICE, _ALO_LABEL_CHOICE_COLUMN,
      _ALO_LABEL_AVAILABILITY, _ALO_LABEL_VARIABLE, _ALO_LABEL_CHOICE_DEPENDENT_VARIABLE,
      _ALO_LABEL_INTERCEPT, _ALO_LABEL_PARAMETER, List.append_assoc, List.cons_append,
      List.nil_append, List.append_nil]
  · intro i s hget hcount
    refine abbreviate_in_role m "c" (m.intercepts.map Prod.snd)
      (registerFrom "ch" 1 m.alternatives ++ ([(m.choice_column, "alt")]
        ++ (registerFrom "av" 1 (m.availability.map Prod.snd)
        ++ (registerFrom "v" 1 m.all_variables
        ++ registerFrom "cv" 1 m.alternative_dependent_variable_fields))))
      (registerFrom "prm" 1 m.parameters) ?_ i s hget hcount
    simp only [_create_abbreviations, _ALO_LABEL_CHOICE, _ALO_LABEL_CHOICE_COLUMN,
      _ALO_LABEL_AVAILABILITY, _ALO_LABEL_VARIABLE, _ALO_LABEL_CHOICE_DEPENDENT_VARIABLE,
      _ALO_LABEL_INTERCEPT, _ALO_LABEL_PARAMETER, List.append_assoc, List.cons_append,
      List.nil_append, List.append_nil]
  · intro i s hget hcount
    refine abbreviate_in_role m "prm" m.parameters
      (registerFrom "ch" 1 m.alternatives ++ ([(m.choice_column, "alt")]
        ++ (registerFrom "av" 1 (m.availability.map Prod.snd)
        ++ (registerFrom "v" 1 m.all_variables
        ++ (registerFrom "cv" 1 m.alternative_dependent_variable_fields
        ++ registerFrom "c" 1 (m.intercepts.map Prod.snd)))))) [] ?_ i s hget hcount
    simp only [_create_abbreviations, _ALO_LABEL_CHOICE, _ALO_LABEL_CHOICE_COLUMN,
      _ALO_LABEL_AVAILABILITY, _ALO_LABEL_VARIABLE, _ALO_LABEL_CHOICE_DEPENDENT_VARIABLE,
      _ALO_LABEL_INTERCEPT, _ALO_LABEL_PARAMETER, List.append_assoc, List.cons_append,
      List.nil_append, List.append_nil]
  · intro a b ha hb hne heq
    have h1 := elongate_abbreviate m a ha
    have h2 := elongate_abbreviate m b hb
    rw [heq, h2] at h1
    injection h1 with h1
    exact hne h1.symm

/-- C7 witness: the token formula on the example model's registrations,
the fixed `alt` token, and token distinctness for two names. -/
theorem C7_token_formula_witness :
    abbreviate mEx "car" = "ch" ++ Nat.repr 1 ∧
    abbreviate mEx mEx.choice_column = "alt" ∧
    abbreviate mEx "av_bus" = "av" ++ Nat.repr 2 ∧
    abbreviate mEx "time" = "v" ++ Nat.repr 1 ∧
    abbreviate mEx "time_bus" = "cv" ++ Nat.repr 2 ∧
    abbreviate mEx "c_car" = "c" ++ Nat.repr 1 ∧
    abbreviate mEx "p_time" = "prm" ++ Nat.repr 1 ∧
    abbreviate mEx "car" ≠ abbreviate mEx "bus" := by
  have h := C7_token_formula mEx
  exact ⟨h.1 0 "car" (by decide) (by decide),
    h.2.1 (by decide),
    h.2.2.1 1 "av_bus" (by decide) (by decide),
    h.2.2.2.1 0 "time" (by decide) (by decide),
    h.2.2.2.2.1 1 "time_bus" (by decide) (by decide),
    h.2.2.2.2.2.1 0 "c_car" (by decide) (by decide),
    h.2.2.2.2.2.2.1 0 "p_time" (by decide) (by decide),
    h.2.2.2.2.2.2.2 "car" "bus" (by decide) (by decide) (by decide)⟩

theorem find_fst_of_nodup {α : Type} :
    ∀ (l : List (String × α)), (l.map Prod.fst).Nodup →
      ∀ p ∈ l, l.find? (fun q => q.1 == p.1) = some p := by
  intro l
  induction l with
  | nil => intro _ p hp; cases hp
  | cons q rest ih =>
    intro hnd p hp
    simp only [List.map_cons, List.nodup_cons] at hnd
    rcases List.mem_cons.mp hp with rfl | hp'
    · simp [List.find?]
    · have hne : (q.1 == p.1) = false := by
        apply beq_false_of_ne
        intro h
        exact hnd.1 (h ▸ List.mem_map_of_mem Prod.fst hp')
      simp only [List.find?, hne]
      exact ih hnd.2 p hp'

/-- With pairwise-distinct keys, a Python-dict lookup returns a member's
value. -/
theorem pyGet?_of_nodup_keys {α : Type} (l : List (String × α))
    (h : (l.map Prod.fst).Nodup) (p : String × α) (hp : p ∈ l) :
    pyGet? l p.1 = some p.2 := by
  have hnd : (l.reverse.map Prod.fst).Nodup := by
    rw [List.map_reverse]
    exact List.nodup_reverse.mpr h
  have hfind := find_fst_of_nodup l.reverse hnd p (List.mem_reverse.mpr hp)
  simp [pyGet?, hfind]

theorem synthetic_alternatives_nodup (A : Nat) :
    ((List.range' 1 A).map (fun n => "alternative" ++ Nat.repr n)).Nodup := by
  refine List.Nodup.map ?_ (List.nodup_range' ..)
  intro a b h
  exact repr_injective (string_append_cancel h)

theorem map_eq_enum_map {α β : Type} (l : List α) (f : α → β) :
    l.map f = l.enum.map (f ∘ Prod.snd) := by
  calc l.map f = (l.enum.map Prod.snd).map f := by rw [List.enum_map_snd]
  _ = l.enum.map (f ∘ Prod.snd) := by rw [List.map_map]

theorem enum_keyed_fst (l : List String) (f : Nat × String → String) :
    ((l.enum.map (fun p => (p.2, f p))).map Prod.fst) = l := by
  rw [List.map_map]
  have h : (Prod.fst ∘ fun p : Nat × String => (p.2, f p)) = Prod.snd := rfl
  rw [h, List.enum_map_snd]

/-- The linear combination `parameter1*variable1 + parameter2*variable2 +
...` of a synthetic model's parameters and (alternative-dependent)
variables, parameter i paired with variable i. -/
def linearComb (args : MNLArgs) : String :=
  pyJoin " + " ((args.parameters.zip
    (args.alternative_dependent_variables.map Prod.fst)).map
    (fun pq => pq.1 ++ "*" ++ pq.2))

/-- C9: the synthetic model has exactly A alternatives, one availability
column per alternative, V alternative-dependent variables each mapping
every alternative to a column of its own (named after the alternative and
the variable), V parameters, an intercept for every alternative but the
last, and per-alternative utility strings equal to the optional intercept
plus the sum over i of `parameter i * variable i`. -/
theorem C9_synthetic_model (title : String) (A V : Nat) (hA : 1 ≤ A) (hV : 1 ≤ V) :
    ∃ args, synthetic_model title A V = .ok args ∧
      args.title = title ∧
      args.alternatives.length = A ∧
      args.choice_column = "choice" ∧
      args.availability.map Prod.fst = args.alternatives ∧
      args.alternative_independent_variables = [] ∧
      args.alternative_dependent_variables.length = V ∧
      (∀ p ∈ args.alternative_dependent_variables,
        p.2.map Prod.fst = args.alternatives ∧ ∀ q ∈ p.2, q.2 = q.1 ++ "_" ++ p.1) ∧
      args.parameters.length = V ∧
      args.intercepts.map Prod.fst = args.alternatives.dropLast ∧
      (∀ lastAlt, args.alternatives.getLast? = some lastAlt →
        args.specification
          = args.intercepts.map (fun p => (p.1, p.2 ++ " + " ++ linearComb args))
            ++ [(lastAlt, linearComb args)]) := by
  have hne : ((List.range' 1 A).map (fun n => "alternative" ++ Nat.repr n)) ≠ [] := by
    intro h
    have hlen := congrArg List.length h
    simp [List.length_range'] at hlen
    omega
  obtain ⟨lastAlt, hlast⟩ : ∃ la,
      ((List.range' 1 A).map (fun n => "alternative" ++ Nat.repr n)).getLast? = some la := by
    cases h : ((List.range' 1 A).map (fun n => "alternative" ++ Nat.repr n)).getLast? with
    | some la => exact ⟨la, rfl⟩
    | none =>
      exfalso
      cases hl : ((List.range' 1 A).map (fun n => "alternative" ++ Nat.repr n)) with
      | nil => exact hne hl
      | cons a as =>
        rw [hl] at h
        simp [List.getLast?_eq_getLast] at h
  cases hsm : synthetic_model title A V with
  | error e =>
    exfalso
    simp only [synthetic_model] at hsm
    rw [hlast] at hsm
    exact Except.noConfusion hsm
  | ok args =>
    have hsm' := hsm
    simp only [synthetic_model] at hsm'
    rw [hlast] at hsm'
    have hargs := Except.ok.inj hsm'
    refine ⟨args, rfl, ?_, ?_, ?_, ?_, ?_, ?_, ?_, ?_, ?_, ?_⟩ <;> rw [← hargs]
    · simp [List.length_range']
    · exact enum_keyed_fst _ _
    · simp [List.length_range']
    · intro p hp
      simp only [List.mem_map] at hp
      obtain ⟨n, hn, rfl⟩ := hp
      constructor
      · have hc : (Prod.fst ∘ fun alt : String =>
            (alt, alt ++ "_variable" ++ Nat.repr n)) = id := rfl
        rw [List.map_map, hc, List.map_id]
      · intro q hq
        simp only [List.mem_map] at hq
        obtain ⟨alt, _, rfl⟩ := hq
        show alt ++ "_variable" ++ Nat.repr n = alt ++ "_" ++ ("variable" ++ Nat.repr n)
        simp only [String.append_assoc]
        rw [append_merge "_" "variable" "_variable" rfl]
    · simp [List.length_range']
    · exact enum_keyed_fst _ _
    · intro la hla
      dsimp only at hla
      rw [hlast] at hla
      injection hla with hla
      subst hla
      dsimp only [linearComb]
      congr 1
      · conv_lhs => rw [map_eq_enum_map]
        conv_rhs => rw [List.map_map]
        apply List.map_congr_left
        intro p hp
        have hmem : (p.2, "c" ++ Nat.repr (p.1 + 1)) ∈
            ((List.range' 1 A).map
              (fun n => "alternative" ++ Nat.repr n)).dropLast.enum.map
              (fun p => (p.2, "c" ++ Nat.repr (p.1 + 1))) :=
          List.mem_map_of_mem _ hp
        have hnodup : ((((List.range' 1 A).map
            (fun n => "alternative" ++ Nat.repr n)).dropLast.enum.map
              (fun p => (p.2, "c" ++ Nat.repr (p.1 + 1)))).map Prod.fst).Nodup := by
          rw [enum_keyed_fst]
          exact (synthetic_alternatives_nodup A).sublist (List.dropLast_sublist _)
        have hget := pyGet?_of_nodup_keys _ hnodup _ hmem
        simp only [Function.comp_apply]
        show (p.2, pyJoin " + " [(pyGet? _ p.2).getD "", _]) = _
        rw [hget]
        rfl

/-- C9 witness: the synthetic model with two alternatives and two
variables. -/
theorem C9_synthetic_model_witness :
    ∃ args, synthetic_model "syn" 2 2 = .ok args ∧
      args.title = "syn" ∧
      args.alternatives.length = 2 ∧
      args.choice_column = "choice" ∧
      args.availability.map Prod.fst = args.alternatives ∧
      args.alternative_independent_variables = [] ∧
      args.alternative_dependent_variables.length = 2 ∧
      (∀ p ∈ args.alternative_dependent_variables,
        p.2.map Prod.fst = args.alternatives ∧ ∀ q ∈ p.2, q.2 = q.1 ++ "_" ++ p.1) ∧
      args.parameters.length = 2 ∧
      args.intercepts.map Prod.fst = args.alternatives.dropLast ∧
      (∀ lastAlt, args.alternatives.getLast? = some lastAlt →
        args.specification
          = args.intercepts.map (fun p => (p.1, p.2 ++ " + " ++ linearComb args))
            ++ [(lastAlt, linearComb args)]) :=
  C9_synthetic_model "syn" 2 2 (by decide) (by decide)

/-- C1 counterexample: on the example model the serializer's output is not
the claim's record sequence — the code emits `$title  Example model` with
a double space, writes the alternative tokens after `$nest root()` rather
than inside the parentheses, and emits the `choice=recode` record before
the `$array` blocks, not after them. -/
theorem C1_counterexample : _create_alo_file iEx ≠ specAloFileClaim iEx := by
  decide

/-- C1 witness: the amended grammar matches the serializer on the example
interface. -/
theorem C1_serializer_amended_grammar_witness :
    _create_alo_file iEx = specAloFileAmended iEx :=
  C1_serializer_amended_grammar iEx
    ⟨by decide, by decide, by decide, by decide, by decide, by decide⟩
